import Mathlib

/-!
Shallow embedding of the positioning and follow engine of the `tail`
utility (src/src.freebsd/coreutils/tail/forward.c).

Streams are modelled as a byte list plus a read position; the `rdErr` flag
says that reading past the available bytes raises a stdio error (`ferror`)
instead of a clean end-of-file.  The output sink models `stdout`: an
append-only byte list whose writes (`putchar`) fail once `cap` bytes have
been written, a `flushed` flag tracking `fflush`.  A fatal write failure
(`oerr`, which terminates the process) is modelled by `Except.error`
carrying the state at the failure; per-file soft errors (`ierr`) append the
file name to `errs`.
-/

namespace Tail

/-- A readable stdio stream: `data` are the bytes the stream can deliver,
`pos` is the current position, and `rdErr` says that after the last byte
the stream reports a read error rather than end-of-file. -/
structure CStream where
  data : List Char
  pos : Nat
  rdErr : Bool
  deriving Repr, DecidableEq

/-- The output sink (stdout): bytes written so far, an optional capacity
after which `putchar` fails, and whether the sink has been flushed since
the last write. -/
structure Sink where
  out : List Char
  cap : Option Nat
  flushed : Bool
  deriving Repr, DecidableEq

/-- `putchar`: `none` models a write failure (`putchar(ch) == EOF`). -/
def Sink.putc (k : Sink) (ch : Char) : Option Sink :=
  match k.cap with
  | some m => if m ≤ k.out.length then none else some ⟨k.out ++ [ch], some m, false⟩
  | none => some ⟨k.out ++ [ch], none, false⟩

/-- The process-wide display cursor: index of the file that last produced
output (`last` in forward.c) and whether `printfn` has not yet printed any
header (controls the separating blank line). -/
structure Disp where
  last : Option Nat
  hfirst : Bool
  deriving Repr, DecidableEq

/-- Ambient output-side state threaded through the engine: the sink, the
display cursor, and the list of file names passed to `ierr`. -/
structure OutSt where
  sink : Sink
  disp : Disp
  errs : List String
  deriving Repr, DecidableEq

/-- `ierr(fn)`: record a per-file soft error. -/
def report (st : OutSt) (fn : String) : OutSt :=
  { st with errs := st.errs ++ [fn] }

/-- `fflush(stdout)`. -/
def flushSt (st : OutSt) : OutSt :=
  { st with sink := ⟨st.sink.out, st.sink.cap, true⟩ }

/-- Write a sequence of bytes one `putchar` at a time; a write failure is
fatal (`oerr`), modelled as `Except.error` with the state at the failure. -/
def writeChars (st : OutSt) : List Char → Except OutSt OutSt
  | [] => .ok st
  | ch :: r =>
    match st.sink.putc ch with
    | none => .error st
    | some k => writeChars { st with sink := k } r

/-- The generic drain loop at the end of `forward` (forward.c:168-176):
copy the remaining bytes to the sink, then `ierr` and return on a pending
read error (without flushing), else flush. -/
def drainM (s : CStream) (fn : String) (st : OutSt) : Except OutSt (CStream × OutSt) :=
  match writeChars st (s.data.drop s.pos) with
  | .error e => .error e
  | .ok st1 =>
    let s1 : CStream := { s with pos := s.data.length }
    if s.rdErr then .ok (s1, report st1 fn)
    else .ok (s1, flushSt st1)

/-! ### The backward scan of `rlines` (forward.c:199-211)

The C code walks a memory-mapped window backward.  `innerScan` is the
inner `for` loop over one window (absolute file indices `lo + k - 1` down
to `lo`), decrementing the wanted-line count at each newline and stopping
the moment it reaches zero.  `outerScanAux` is the outer `while` loop;
the window geometry of `maparound` (which lives outside this tree) is a
parameter `win` giving the lower bound of the window that covers the
examined byte, clamped so it never exceeds that byte.  The first argument
of `outerScanAux` is a structural-recursion bound: the C loop variable
`curoff` strictly decreases, so a bound equal to the initial `curoff + 1`
is always sufficient. -/

/-- Inner window loop: scan file indices `lo + k - 1` down to `lo`;
at each newline decrement `off`; when it reaches zero, return the index of
that newline.  Returns the remaining count otherwise. -/
def innerScan (c : List Char) (lo : Nat) : Nat → Nat → Option Nat × Nat
  | 0, off => (none, off)
  | k + 1, off =>
    if c.getD (lo + k) ' ' = '\n' then
      if off = 1 then (some (lo + k), 0)
      else innerScan c lo k (off - 1)
    else innerScan c lo k off

/-- Outer window loop.  The second argument is `curoff + 1` (so `0` means
the scan ran past the start of the file and the answer is byte 0); the
result is the byte position at which display starts. -/
def outerScanAux (c : List Char) (win : Nat → Nat) : Nat → Nat → Nat → Nat
  | 0, _, _ => 0
  | _ + 1, 0, _ => 0
  | b + 1, m + 1, off =>
    let lo := min (win m) m
    match innerScan c lo (m + 1 - lo) off with
    | (some idx, _) => idx + 1
    | (none, off2) => outerScanAux c win b lo off2

/-- Reference backward scan: scan indices `n - 1` down to `0` one byte at
a time; the windowed loop is proved equal to this below. -/
def scanBackAux (c : List Char) : Nat → Nat → Nat
  | 0, _ => 0
  | n + 1, off =>
    if c.getD n ' ' = '\n' then
      if off = 1 then n + 1 else scanBackAux c n (off - 1)
    else scanBackAux c n off

/-- Start position chosen by `rlines`: the final byte of the file is
unconditionally excluded (`curoff = size - 2`), then the file is scanned
backward for the `off`-th newline. -/
def rlinesStart (win : Nat → Nat) (c : List Char) (off : Nat) : Nat :=
  if c.length = 0 then 0
  else outerScanAux c win (c.length - 1) (c.length - 1) off

/-- Failure oracle for the collaborators of `rlines`: whether the final
`fseeko` to the end of the file fails. -/
structure MapOracle where
  win : Nat → Nat
  seekFail : Bool

/-- Result of `rlines`: position of the stream at return, whether the
mapped view is still mapped at return, and the output-side state. -/
structure RlRes where
  pos : Nat
  mapped : Bool
  st : OutSt
  deriving Repr

/-- `rlines` (forward.c:181-227): locate the start of the last `off`
lines, write `[start, size)` straight from the mapped view (`mapprint`;
its failure modes — a failed write or a failed window advance — terminate
the process, modelled as the fatal case), then seek the stream to the end
of the file and unmap.  A failed final seek takes the `ierr; return` path
at forward.c:219-222, which returns before the `munmap` on line 223. -/
def rlinesM (orc : MapOracle) (c : List Char) (fn : String) (off : Nat) (pos0 : Nat)
    (st : OutSt) : Except OutSt RlRes :=
  if c.length = 0 then .ok ⟨pos0, false, st⟩
  else
    let curoff := rlinesStart orc.win c off
    match writeChars st (c.drop curoff) with
    | .error e => .error e
    | .ok st1 =>
      if orc.seekFail then .ok ⟨pos0, true, report st1 fn⟩
      else .ok ⟨c.length, false, st1⟩

/-! ### `forward` (forward.c:88-176) -/

/-- The seek styles of `enum STYLE` (extern.h). -/
inductive STYLE where
  | NOTSET | FBYTES | FLINES | RBYTES | RLINES | REVERSE
  deriving Repr, DecidableEq

/-- Number of bytes, counted from the head of `rem`, consumed up to and
including the `off`-th newline; `none` if `rem` holds fewer newlines
(the `FLINES` read loop, forward.c:116-126). -/
def nlinePos : List Char → Nat → Option Nat
  | [], _ => none
  | ch :: r, off =>
    if ch = '\n' then
      if off = 1 then some 1 else (nlinePos r (off - 1)).map (· + 1)
    else (nlinePos r off).map (· + 1)

/-- Split a byte list into chunks, each ending right after a newline; a
trailing chunk without a newline is kept.  Used to model the
line-oriented collaborators and to state the last-N-lines property. -/
def splitAfterNL : List Char → List (List Char)
  | [] => []
  | ch :: r =>
    if ch = '\n' then [ch] :: splitAfterNL r
    else
      match splitAfterNL r with
      | [] => [[ch]]
      | l :: ls => (ch :: l) :: ls

/-- A newline-terminated line: a nonempty chunk whose only newline is its
final byte.  Every file ending in a newline is the flattening of a list
of such lines. -/
def NLLine (l : List Char) : Prop :=
  ∃ b, l = b ++ ['\n'] ∧ '\n' ∉ b

/-- Outcome of the positioning phase of `forward`: either the function
returned early (after `ierr`) or control falls through to the drain loop. -/
inductive PosRes where
  | ret (s : CStream) (st : OutSt)
  | cont (s : CStream) (st : OutSt)

/-- Positioning phase of `forward` (the `switch` at forward.c:93-166).
Seeks on regular files are modelled as always succeeding.  The
wrap-around-buffer routines `bytes` and `lines` live in reverse.c, which
is not part of this tree; they are modelled from the spec: `bytes` reads
the whole stream through a ring buffer and replays its last
`min(off, length)` bytes, `lines` keeps the last `off` newline-delimited
chunks and emits them at end-of-file, and both report a read error
(`ierr`) and return nonzero — making `forward` return — without output. -/
def posPhaseM (orc : MapOracle) (s : CStream) (fn : String) (style : STYLE) (off : Nat)
    (isReg : Bool) (size : Nat) (st : OutSt) : Except OutSt PosRes :=
  match style with
  | .FBYTES =>
    if off = 0 then .ok (.cont s st)
    else if isReg ∧ 0 < size then
      .ok (.cont { s with pos := min off size } st)
    else
      let avail := s.data.length - s.pos
      if off ≤ avail then .ok (.cont { s with pos := s.pos + off } st)
      else
        let s1 : CStream := { s with pos := s.data.length }
        if s.rdErr then .ok (.ret s1 (report st fn)) else .ok (.cont s1 st)
  | .FLINES =>
    if off = 0 then .ok (.cont s st)
    else
      match nlinePos (s.data.drop s.pos) off with
      | some k => .ok (.cont { s with pos := s.pos + k } st)
      | none =>
        let s1 : CStream := { s with pos := s.data.length }
        if s.rdErr then .ok (.ret s1 (report st fn)) else .ok (.cont s1 st)
  | .RBYTES =>
    if isReg ∧ 0 < size then
      if off ≤ size then .ok (.cont { s with pos := size - off } st)
      else .ok (.cont s st)
    else if off = 0 then
      let s1 : CStream := { s with pos := s.data.length }
      if s.rdErr then .ok (.ret s1 (report st fn)) else .ok (.cont s1 st)
    else
      let s1 : CStream := { s with pos := s.data.length }
      if s.rdErr then .ok (.ret s1 (report st fn))
      else
        let rem := s.data.drop s.pos
        match writeChars st (rem.drop (rem.length - min off rem.length)) with
        | .error e => .error e
        | .ok st1 => .ok (.cont s1 st1)
  | .RLINES =>
    if isReg ∧ 0 < size then
      if off = 0 then .ok (.cont { s with pos := size } st)
      else
        match rlinesM orc s.data fn off s.pos st with
        | .error e => .error e
        | .ok r => .ok (.cont { s with pos := r.pos } r.st)
    else if off = 0 then
      let s1 : CStream := { s with pos := s.data.length }
      if s.rdErr then .ok (.ret s1 (report st fn)) else .ok (.cont s1 st)
    else
      let s1 : CStream := { s with pos := s.data.length }
      if s.rdErr then .ok (.ret s1 (report st fn))
      else
        let chunks := splitAfterNL (s.data.drop s.pos)
        match writeChars st (chunks.drop (chunks.length - off)).flatten with
        | .error e => .error e
        | .ok st1 => .ok (.cont s1 st1)
  | _ => .ok (.cont s st)

/-- `forward`: position the stream, then run the generic drain loop on
the fall-through paths. -/
def forwardM (orc : MapOracle) (s : CStream) (fn : String) (style : STYLE) (off : Nat)
    (isReg : Bool) (size : Nat) (st : OutSt) : Except OutSt (CStream × OutSt) :=
  match posPhaseM orc s fn style off isReg size st with
  | .error e => .error e
  | .ok (.ret s1 st1) => .ok (s1, st1)
  | .ok (.cont s1 st1) => drainM s1 fn st1

/-! ### The follow loop (forward.c:229-333) -/

/-- Command-line flags the engine consults: `-F` (reopen on rotation),
`-v`, `-q`, and the number of tracked files (`no_files`). -/
structure Flags where
  Fflag : Bool
  vflag : Bool
  qflag : Bool
  nfiles : Nat
  deriving Repr, DecidableEq

/-- The header policy of `show` and `follow`:
`vflag || (qflag == 0 && no_files > 1)`. -/
def showPolicy (fl : Flags) : Bool :=
  fl.vflag || (!fl.qflag && decide (1 < fl.nfiles))

/-- Identity snapshot from `fstat`: the fields the follow loop compares. -/
structure Ident where
  dev : Nat
  ino : Nat
  nlink : Nat
  deriving Repr, DecidableEq

/-- One tracked file (`file_info_t`): display name, the stream or `none`
when the file is currently unavailable, the identity captured at the last
successful open, and whether the file is a regular file / standard input. -/
structure FileInfoM where
  name : String
  fp : Option CStream
  ident : Ident
  isReg : Bool
  isStdin : Bool
  deriving Repr, DecidableEq

/-- Modelled from the spec: the header routine `printfn` lives in misc.c,
which is not part of this tree.  Per the concrete scenario in the spec it
prints `"==> name <==\n"`, preceded by a blank line except before the very
first header of the run; its `printf` return value is unchecked in the
caller, so the write is modelled as an unconditional append. -/
def printfnM (name : String) (st : OutSt) : OutSt :=
  let pre : List Char := if st.disp.hfirst then [] else ['\n']
  let hdr := pre ++ String.toList "==> " ++ String.toList name ++ String.toList " <==" ++ ['\n']
  { st with sink := ⟨st.sink.out ++ hdr, st.sink.cap, false⟩,
            disp := ⟨st.disp.last, false⟩ }

/-- The full header text `printfnM` appends for `name` in state `st`. -/
def hdrOf (st : OutSt) (name : String) : List Char :=
  (if st.disp.hfirst then [] else ['\n']) ++ String.toList "==> "
    ++ String.toList name ++ String.toList " <==" ++ ['\n']

/-- The header step at the top of the `show` read loop (forward.c:235-239):
on the first byte produced, if the display cursor points to a different
file, print a header subject to the policy and move the cursor to this
file; when no byte is produced nothing happens. -/
def showHdrSt (fl : Flags) (i : Nat) (name : String) (bytes : List Char)
    (st : OutSt) : OutSt :=
  if bytes = [] then st
  else if st.disp.last = some i then st
  else
    let stH := if showPolicy fl then printfnM name st else st
    { stH with disp := ⟨some i, stH.disp.hfirst⟩ }

/-- `show` (forward.c:229-252): drain the remaining bytes of one tracked
file; on the first byte, if the display cursor points elsewhere, print a
header (subject to the policy) and move the cursor; flush; on a pending
read error, close the stream, mark the file unavailable and `ierr`. -/
def showM (fl : Flags) (i : Nat) (f : FileInfoM) (st : OutSt) :
    Except OutSt (FileInfoM × OutSt) :=
  match f.fp with
  | none => .ok (f, st)
  | some s =>
    let bytes := s.data.drop s.pos
    let st0 := showHdrSt fl i f.name bytes st
    match writeChars st0 bytes with
    | .error e => .error e
    | .ok st1 =>
      let st2 := flushSt st1
      if s.rdErr then .ok ({ f with fp := none }, report st2 f.name)
      else .ok ({ f with fp := some { s with pos := s.data.length } }, st2)

/-- The outcome `show` computes for a file with stream `s` when the sink
has no write-failure capacity: header step, the remaining bytes, a flush,
and — on a pending read error — the closed file and the `ierr` report. -/
def showRes (fl : Flags) (i : Nat) (f : FileInfoM) (s : CStream) (st : OutSt) :
    FileInfoM × OutSt :=
  let st0 := showHdrSt fl i f.name (s.data.drop s.pos) st
  let st2 : OutSt := ⟨⟨st0.sink.out ++ s.data.drop s.pos, none, true⟩, st0.disp, st0.errs⟩
  if s.rdErr then ({ f with fp := none }, report st2 f.name)
  else ({ f with fp := some ⟨s.data, s.data.length, s.rdErr⟩ }, st2)

/-- The body of the `Fflag` block for one file (forward.c:283-326): reopen
an absent file; skip standard input; on a failed re-stat of the path drain
the old stream and mark the file absent; on an identity change drain the
old stream, then adopt the newly opened stream and identity; otherwise
keep the current stream.  `fs` maps a path to the content and identity a
fresh open-plus-fstat would observe this cycle, `none` when that fails
(the `errno != ENOENT` reporting distinction is not modelled). -/
def checkFileF (fs : String → Option (List Char × Ident)) (fl : Flags) (i : Nat)
    (f : FileInfoM) (st : OutSt) : Except OutSt (FileInfoM × OutSt) :=
  match f.fp with
  | none =>
    match fs f.name with
    | some (c2, id2) => .ok ({ f with fp := some ⟨c2, 0, false⟩, ident := id2 }, st)
    | none => .ok (f, st)
  | some _ =>
    if f.isStdin then .ok (f, st)
    else
      match fs f.name with
      | none =>
        match showM fl i f st with
        | .error e => .error e
        | .ok (f1, st1) => .ok ({ f1 with fp := none }, st1)
      | some (c2, id2) =>
        if id2.ino ≠ f.ident.ino ∨ id2.dev ≠ f.ident.dev ∨ id2.nlink = 0 then
          match showM fl i f st with
          | .error e => .error e
          | .ok (f1, st1) =>
            .ok ({ f1 with fp := some ⟨c2, 0, false⟩, ident := id2 }, st1)
        else .ok (f, st)

/-- Traverse the tracked files in argument order with a per-file action,
threading the output state and propagating a fatal write failure. -/
def traverseFiles (g : Nat → FileInfoM → OutSt → Except OutSt (FileInfoM × OutSt)) :
    Nat → List FileInfoM → OutSt → Except OutSt (List FileInfoM × OutSt)
  | _, [], st => .ok ([], st)
  | i, f :: fsl, st =>
    match g i f st with
    | .error e => .error e
    | .ok (f1, st1) =>
      match traverseFiles g (i + 1) fsl st1 with
      | .error e => .error e
      | .ok (fsl1, st2) => .ok (f1 :: fsl1, st2)

/-- The second loop of a poll cycle (forward.c:329-330): `show` a file
exactly when its stream is present. -/
def showIfOpen (fl : Flags) (i : Nat) (f : FileInfoM) (st : OutSt) :
    Except OutSt (FileInfoM × OutSt) :=
  if f.fp.isSome then showM fl i f st else .ok (f, st)

/-- One iteration of the `for (;;)` loop (forward.c:281-333): the `Fflag`
block over all files, then `show` for every file with a present stream,
then the poll sleep (a no-op here). -/
def followCycleM (fs : String → Option (List Char × Ident)) (fl : Flags)
    (files : List FileInfoM) (st : OutSt) : Except OutSt (List FileInfoM × OutSt) :=
  match (if fl.Fflag then traverseFiles (checkFileF fs fl) 0 files st
         else .ok (files, st)) with
  | .error e => .error e
  | .ok (files1, st1) =>
    traverseFiles (showIfOpen fl) 0 files1 st1

/-- Initial positioning of one file in `follow` (forward.c:268-275):
header per the policy, then `forward`.  The identity's size equals the
stream length for the regular files this phase sees. -/
def enterFile (orc : MapOracle) (style : STYLE) (off : Nat) (fl : Flags)
    (f : FileInfoM) (st : OutSt) : Except OutSt (FileInfoM × OutSt) :=
  match f.fp with
  | none => .ok (f, st)
  | some s =>
    let st1 := if showPolicy fl then printfnM f.name st else st
    match forwardM orc s f.name style off f.isReg s.data.length st1 with
    | .error e => .error e
    | .ok (s1, st2) => .ok ({ f with fp := some s1 }, st2)

/-- Outcome of `follow`: `done` models the early `return` at
forward.c:276-277; `more` is the loop still running after the modelled
number of cycles. -/
inductive FollowRes where
  | done (st : OutSt)
  | more (files : List FileInfoM) (st : OutSt)

/-- The entry phase of `follow` (forward.c:266-279): position every file
with a present stream; return early when `!Fflag` and no file was active;
otherwise set the display cursor to the last array element. -/
def followEnterM (orc : MapOracle) (style : STYLE) (off : Nat) (fl : Flags)
    (files : List FileInfoM) (st : OutSt) : Except OutSt FollowRes :=
  match traverseFiles (fun _ f stx => enterFile orc style off fl f stx) 0 files st with
  | .error e => .error e
  | .ok (files1, st1) =>
    if !fl.Fflag && !(files.any (fun f => f.fp.isSome)) then .ok (.done st1)
    else .ok (.more files1
      { st1 with disp := ⟨some (files.length - 1), st1.disp.hfirst⟩ })

/-- Run the infinite loop for a bounded number of cycles; `fs` gives the
file system contents each cycle observes.  The loop body has no exit of
its own. -/
def followLoopM (fs : Nat → String → Option (List Char × Ident)) (fl : Flags) :
    Nat → Nat → List FileInfoM → OutSt → Except OutSt FollowRes
  | 0, _, files, st => .ok (.more files st)
  | k + 1, cyc, files, st =>
    match followCycleM (fs cyc) fl files st with
    | .error e => .error e
    | .ok (files1, st1) => followLoopM fs fl k (cyc + 1) files1 st1

/-- `follow` (forward.c:258-333), with the infinite loop cut off after
`fuel` cycles. -/
def followM (orc : MapOracle) (style : STYLE) (off : Nat)
    (fs : Nat → String → Option (List Char × Ident)) (fl : Flags)
    (files : List FileInfoM) (st : OutSt) (fuel : Nat) : Except OutSt FollowRes :=
  match followEnterM orc style off fl files st with
  | .error e => .error e
  | .ok (.done st1) => .ok (.done st1)
  | .ok (.more files1 st1) => followLoopM fs fl fuel 0 files1 st1

/-- Modelled from the spec: the non-follow multi-file driver lives in
tail.c, which is not part of this tree.  Per the spec it positions and
drains each file in argument order and emits a header before a file's
output whenever that file is about to produce output and differs from the
display cursor, subject to the header policy; the cursor moves to each
file that produces output.  Each file's bytes are obtained by running
`forward` against a scratch sink and are then written behind the header. -/
def nfRun (orc : MapOracle) (style : STYLE) (off : Nat) (fl : Flags) :
    Nat → List (String × CStream × Bool) → OutSt → Except OutSt OutSt
  | _, [], st => .ok st
  | i, (name, s, isReg) :: rest, st =>
    match forwardM orc s name style off isReg s.data.length
        ⟨⟨[], none, false⟩, st.disp, st.errs⟩ with
    | .error _ => .error st
    | .ok (_, stf) =>
      let bytes := stf.sink.out
      let stA : OutSt := { st with errs := stf.errs }
      let st0 := showHdrSt fl i name bytes stA
      match writeChars st0 bytes with
      | .error e => .error e
      | .ok st1 => nfRun orc style off fl (i + 1) rest (flushSt st1)

/-! ### Concrete fixtures used to instantiate the theorems -/

/-- The five-line sample file of the spec scenario, `"1\n2\n3\n4\n5\n"`,
as a list of newline-terminated lines. -/
def sampleLines : List (List Char) :=
  [['1', '\n'], ['2', '\n'], ['3', '\n'], ['4', '\n'], ['5', '\n']]

/-- A window oracle whose windows cover exactly the examined byte and
whose final seek succeeds. -/
def idOracle : MapOracle := ⟨fun t => t, false⟩

/-- A window oracle whose final seek fails. -/
def seekFailOracle : MapOracle := ⟨fun t => t, true⟩

/-- A fresh output state: empty unlimited sink, not yet flushed, no file
has produced output, no header printed, no errors reported. -/
def st0 : OutSt := ⟨⟨[], none, false⟩, ⟨none, true⟩, []⟩

/-- A fresh output state whose very next write fails. -/
def stCap0 : OutSt := ⟨⟨[], some 0, false⟩, ⟨none, true⟩, []⟩

/-! ### Lemmas: the windowed backward scan equals the byte-by-byte scan -/

theorem innerScan_snd_pos (c : List Char) (lo : Nat) :
    ∀ k off off2, 1 ≤ off → innerScan c lo k off = (none, off2) → 1 ≤ off2 := by
  intro k
  induction k with
  | zero =>
    intro off off2 h1 h2
    rw [innerScan] at h2
    cases h2
    omega
  | succ k ih =>
    intro off off2 h1 h2
    rw [innerScan] at h2
    by_cases hc : c.getD (lo + k) ' ' = '\n'
    · rw [if_pos hc] at h2
      by_cases ho : off = 1
      · rw [if_pos ho] at h2
        cases h2
      · rw [if_neg ho] at h2
        exact ih (off - 1) off2 (by omega) h2
    · rw [if_neg hc] at h2
      exact ih off off2 h1 h2

theorem scanBack_inner_found (c : List Char) (lo : Nat) :
    ∀ k off idx r, 1 ≤ off → innerScan c lo k off = (some idx, r) →
      scanBackAux c (lo + k) off = idx + 1 := by
  intro k
  induction k with
  | zero =>
    intro off idx r _ h2
    rw [innerScan] at h2
    cases h2
  | succ k ih =>
    intro off idx r h1 h2
    rw [innerScan] at h2
    show scanBackAux c ((lo + k) + 1) off = idx + 1
    rw [scanBackAux]
    by_cases hc : c.getD (lo + k) ' ' = '\n'
    · rw [if_pos hc] at h2 ⊢
      by_cases ho : off = 1
      · rw [if_pos ho] at h2
        rw [if_pos ho]
        cases h2
        rfl
      · rw [if_neg ho] at h2
        rw [if_neg ho]
        exact ih (off - 1) idx r (by omega) h2
    · rw [if_neg hc] at h2
      rw [if_neg hc]
      exact ih off idx r h1 h2

theorem scanBack_inner_none (c : List Char) (lo : Nat) :
    ∀ k off off2, 1 ≤ off → innerScan c lo k off = (none, off2) →
      scanBackAux c (lo + k) off = scanBackAux c lo off2 := by
  intro k
  induction k with
  | zero =>
    intro off off2 _ h2
    rw [innerScan] at h2
    cases h2
    rfl
  | succ k ih =>
    intro off off2 h1 h2
    rw [innerScan] at h2
    show scanBackAux c ((lo + k) + 1) off = scanBackAux c lo off2
    rw [scanBackAux]
    by_cases hc : c.getD (lo + k) ' ' = '\n'
    · rw [if_pos hc] at h2 ⊢
      by_cases ho : off = 1
      · rw [if_pos ho] at h2
        cases h2
      · rw [if_neg ho] at h2
        rw [if_neg ho]
        exact ih (off - 1) off2 (by omega) h2
    · rw [if_neg hc] at h2
      rw [if_neg hc]
      exact ih off off2 h1 h2

theorem outerScanAux_eq (c : List Char) (win : Nat → Nat) :
    ∀ b n off, 1 ≤ off → n ≤ b → outerScanAux c win b n off = scanBackAux c n off := by
  intro b
  induction b with
  | zero =>
    intro n off _ hb
    interval_cases n
    simp [outerScanAux, scanBackAux]
  | succ b ih =>
    intro n off h1 hb
    match n with
    | 0 => simp [outerScanAux, scanBackAux]
    | m + 1 =>
      have hlo : min (win m) m ≤ m := Nat.min_le_right _ _
      show outerScanAux c win (b + 1) (m + 1) off = scanBackAux c (m + 1) off
      rw [outerScanAux]
      rcases hi : innerScan c (min (win m) m) (m + 1 - min (win m) m) off with ⟨fnd, off2⟩
      rcases fnd with _ | idx
      · simp only [hi]
        have hk : min (win m) m + (m + 1 - min (win m) m) = m + 1 := by omega
        have := scanBack_inner_none c (min (win m) m) (m + 1 - min (win m) m) off off2 h1 hi
        rw [hk] at this
        rw [this]
        exact ih (min (win m) m) off2
          (innerScan_snd_pos c (min (win m) m) _ off off2 h1 hi) (by omega)
      · simp only [hi]
        have hk : min (win m) m + (m + 1 - min (win m) m) = m + 1 := by omega
        have := scanBack_inner_found c (min (win m) m) (m + 1 - min (win m) m) off idx off2 h1 hi
        rw [hk] at this
        exact this.symm

theorem scanBackAux_le (c : List Char) : ∀ n off, scanBackAux c n off ≤ n := by
  intro n
  induction n with
  | zero => intro off; simp [scanBackAux]
  | succ n ih =>
    intro off
    rw [scanBackAux]
    by_cases hc : c.getD n ' ' = '\n'
    · rw [if_pos hc]
      by_cases ho : off = 1
      · rw [if_pos ho]
      · rw [if_neg ho]
        exact Nat.le_succ_of_le (ih (off - 1))
    · rw [if_neg hc]
      exact Nat.le_succ_of_le (ih off)

theorem scanBackAux_append (c d : List Char) :
    ∀ n off, n ≤ c.length → scanBackAux (c ++ d) n off = scanBackAux c n off := by
  intro n
  induction n with
  | zero => intro off _; rfl
  | succ n ih =>
    intro off h
    rw [scanBackAux, scanBackAux]
    rw [List.getD_append c d ' ' n (by omega)]
    by_cases hc : c.getD n ' ' = '\n'
    · rw [if_pos hc, if_pos hc]
      by_cases ho : off = 1
      · rw [if_pos ho, if_pos ho]
      · rw [if_neg ho, if_neg ho, ih (off - 1) (by omega)]
    · rw [if_neg hc, if_neg hc, ih off (by omega)]

theorem scanBackAux_snoc (c : List Char) (ch : Char) (off : Nat) :
    scanBackAux (c ++ [ch]) (c.length + 1) off =
      if ch = '\n' then
        (if off = 1 then c.length + 1 else scanBackAux c c.length (off - 1))
      else scanBackAux c c.length off := by
  rw [scanBackAux]
  have hg : (c ++ [ch]).getD c.length ' ' = ch := by
    rw [List.getD_append_right c [ch] ' ' c.length (Nat.le_refl _)]
    simp
  rw [hg]
  by_cases hc : ch = '\n'
  · rw [if_pos hc, if_pos hc]
    by_cases ho : off = 1
    · rw [if_pos ho, if_pos ho]
    · rw [if_neg ho, if_neg ho, scanBackAux_append c [ch] c.length (off - 1) (Nat.le_refl _)]
  · rw [if_neg hc, if_neg hc, scanBackAux_append c [ch] c.length off (Nat.le_refl _)]

theorem scanBackAux_noNL (c : List Char) (l : List Char) (hl : '\n' ∉ l) (off : Nat) :
    scanBackAux (c ++ l) (c.length + l.length) off = scanBackAux c c.length off := by
  induction l using List.reverseRecOn with
  | nil => simp
  | append_singleton l ch ih =>
    have hch : ch ≠ '\n' := by
      intro h
      exact hl (by simp [h])
    have hl' : '\n' ∉ l := fun h => hl (by simp [h])
    rw [← List.append_assoc]
    have hlen : (c ++ l).length = c.length + l.length := by simp
    have harg : c.length + (l ++ [ch]).length = (c ++ l).length + 1 := by
      simp [List.length_append]
      omega
    calc scanBackAux ((c ++ l) ++ [ch]) (c.length + (l ++ [ch]).length) off
        = scanBackAux ((c ++ l) ++ [ch]) ((c ++ l).length + 1) off := by rw [harg]
      _ = scanBackAux (c ++ l) (c ++ l).length off := by
          rw [scanBackAux_snoc]
          rw [if_neg hch]
      _ = scanBackAux c c.length off := by rw [hlen]; exact ih hl'

theorem scanBackAux_flatten (ms : List (List Char)) (hms : ∀ l ∈ ms, NLLine l) :
    ∀ off, 1 ≤ off →
      scanBackAux ms.flatten ms.flatten.length off =
        ((ms.take (ms.length + 1 - off)).flatten).length := by
  induction ms using List.reverseRecOn with
  | nil =>
    intro off _
    simp [scanBackAux]
  | append_singleton ms l ih =>
    intro off hoff
    obtain ⟨b, hb, hbnl⟩ := hms l (by simp)
    have hms' : ∀ l' ∈ ms, NLLine l' := fun l' h => hms l' (by simp [h])
    rw [List.flatten_append, hb]
    simp only [List.flatten_cons, List.flatten_nil, List.append_nil]
    rw [← List.append_assoc]
    have h1 : (ms.flatten ++ b ++ ['\n']).length = (ms.flatten ++ b).length + 1 := by
      simp [List.length_append]
      omega
    rw [h1, scanBackAux_snoc, if_pos rfl]
    by_cases ho : off = 1
    · rw [if_pos ho]
      subst ho
      have hlen2 : (ms ++ [b ++ ['\n']]).length + 1 - 1 = ms.length + 1 := by simp
      rw [hlen2, List.take_of_length_le (by simp), List.flatten_append]
      simp only [List.flatten_cons, List.flatten_nil, List.append_nil, List.length_append,
        List.length_cons, List.length_nil]
      omega
    · rw [if_neg ho]
      have h2 : (ms.flatten ++ b).length = ms.flatten.length + b.length := by simp
      rw [h2, scanBackAux_noNL ms.flatten b hbnl (off - 1)]
      rw [ih hms' (off - 1) (by omega)]
      have h3 : (ms ++ [b ++ ['\n']]).length + 1 - off = ms.length + 1 - (off - 1) := by
        simp only [List.length_append, List.length_cons, List.length_nil]
        omega
      rw [h3]
      have h4 : ms.length + 1 - (off - 1) ≤ ms.length := by omega
      rw [List.take_append_of_le_length h4]

theorem innerScan_found_lt (c : List Char) (lo : Nat) :
    ∀ k off idx r, innerScan c lo k off = (some idx, r) → idx < lo + k := by
  intro k
  induction k with
  | zero =>
    intro off idx r h
    rw [innerScan] at h
    cases h
  | succ k ih =>
    intro off idx r h
    rw [innerScan] at h
    by_cases hc : c.getD (lo + k) ' ' = '\n'
    · rw [if_pos hc] at h
      by_cases ho : off = 1
      · rw [if_pos ho] at h
        cases h
        omega
      · rw [if_neg ho] at h
        exact Nat.lt_succ_of_lt (ih (off - 1) idx r h)
    · rw [if_neg hc] at h
      exact Nat.lt_succ_of_lt (ih off idx r h)

theorem outerScanAux_le (c : List Char) (win : Nat → Nat) :
    ∀ b n off, outerScanAux c win b n off ≤ n := by
  intro b
  induction b with
  | zero => intro n off; simp [outerScanAux]
  | succ b ih =>
    intro n off
    match n with
    | 0 => simp [outerScanAux]
    | m + 1 =>
      rw [outerScanAux]
      rcases hi : innerScan c (min (win m) m) (m + 1 - min (win m) m) off with ⟨fnd, off2⟩
      rcases fnd with _ | idx
      · simp only [hi]
        exact Nat.le_trans (ih _ off2) (by omega)
      · simp only [hi]
        have := innerScan_found_lt c (min (win m) m) _ off idx off2 hi
        omega

theorem rlinesStart_lt (win : Nat → Nat) (c : List Char) (off : Nat) (hc : c ≠ []) :
    rlinesStart win c off < c.length := by
  have hl : c.length ≠ 0 := by simpa using hc
  rw [rlinesStart, if_neg hl]
  have := outerScanAux_le c win (c.length - 1) (c.length - 1) off
  omega

theorem rlinesStart_flatten (win : Nat → Nat) (lns : List (List Char)) (n : Nat)
    (hwf : ∀ l ∈ lns, NLLine l) (hne : lns ≠ []) (hn : 1 ≤ n) :
    rlinesStart win lns.flatten n = ((lns.take (lns.length - n)).flatten).length := by
  induction lns using List.reverseRecOn with
  | nil => exact absurd rfl hne
  | append_singleton ms l _ =>
    obtain ⟨b, hb, hbnl⟩ := hwf l (by simp)
    have hms : ∀ l' ∈ ms, NLLine l' := fun l' h => hwf l' (by simp [h])
    subst hb
    rw [List.flatten_append]
    simp only [List.flatten_cons, List.flatten_nil, List.append_nil]
    rw [← List.append_assoc]
    have hlen : (ms.flatten ++ b ++ ['\n']).length = (ms.flatten ++ b).length + 1 := by
      simp
      omega
    have hlz : (ms.flatten ++ b ++ ['\n']).length ≠ 0 := by omega
    rw [rlinesStart, if_neg hlz, hlen]
    have hsub : (ms.flatten ++ b).length + 1 - 1 = (ms.flatten ++ b).length := by omega
    rw [hsub]
    rw [outerScanAux_eq _ win _ _ n hn (Nat.le_refl _)]
    rw [scanBackAux_append (ms.flatten ++ b) ['\n'] _ n (Nat.le_refl _)]
    have h2 : (ms.flatten ++ b).length = ms.flatten.length + b.length := by simp
    rw [h2, scanBackAux_noNL ms.flatten b hbnl n]
    rw [scanBackAux_flatten ms hms n hn]
    have h3 : (ms ++ [b ++ ['\n']]).length - n = ms.length + 1 - n := by simp
    rw [h3]
    have h4 : ms.length + 1 - n ≤ ms.length := by omega
    rw [List.take_append_of_le_length h4]

theorem flatten_len_pos (lns : List (List Char)) (hwf : ∀ l ∈ lns, NLLine l)
    (hne : lns ≠ []) : 0 < lns.flatten.length := by
  match lns with
  | [] => exact absurd rfl hne
  | l :: r =>
    obtain ⟨b, hb, _⟩ := hwf l (by simp)
    subst hb
    simp

theorem drop_flatten_take (lns : List (List Char)) (m : Nat) :
    lns.flatten.drop ((lns.take m).flatten).length = (lns.drop m).flatten := by
  calc lns.flatten.drop ((lns.take m).flatten).length
      = ((lns.take m ++ lns.drop m).flatten).drop ((lns.take m).flatten).length := by
        rw [List.take_append_drop]
    _ = ((lns.take m).flatten ++ (lns.drop m).flatten).drop ((lns.take m).flatten).length := by
        rw [List.flatten_append]
    _ = (lns.drop m).flatten := List.drop_left _ _

theorem writeChars_cap_none : ∀ (l : List Char) (st : OutSt), st.sink.cap = none →
    writeChars st l =
      .ok ⟨⟨st.sink.out ++ l, none, if l = [] then st.sink.flushed else false⟩,
           st.disp, st.errs⟩ := by
  intro l
  induction l with
  | nil =>
    intro st h
    rcases st with ⟨⟨o, cp, fl⟩, d, e⟩
    simp at h
    subst h
    simp [writeChars]
  | cons ch r ih =>
    intro st h
    rcases st with ⟨⟨o, cp, fl⟩, d, e⟩
    simp at h
    subst h
    rw [writeChars]
    simp only [Sink.putc]
    rw [ih ⟨⟨o ++ [ch], none, false⟩, d, e⟩ rfl]
    simp

theorem rlinesM_ok (orc : MapOracle) (c : List Char) (fn : String) (off : Nat) (pos0 : Nat)
    (st : OutSt) (hcap : st.sink.cap = none) (hseek : orc.seekFail = false)
    (hc : c ≠ []) :
    rlinesM orc c fn off pos0 st =
      .ok ⟨c.length, false,
        ⟨⟨st.sink.out ++ c.drop (rlinesStart orc.win c off), none, false⟩,
         st.disp, st.errs⟩⟩ := by
  have hlz : c.length ≠ 0 := by simpa using hc
  rw [rlinesM, if_neg hlz]
  have hdrop : c.drop (rlinesStart orc.win c off) ≠ [] := by
    have := rlinesStart_lt orc.win c off hc
    simp [List.drop_eq_nil_iff]
    omega
  simp [writeChars_cap_none _ st hcap, hdrop, hseek]

theorem drainM_at_end (c : List Char) (fn : String) (st : OutSt) :
    drainM ⟨c, c.length, false⟩ fn st = .ok (⟨c, c.length, false⟩, flushSt st) := by
  simp [drainM, List.drop_length, writeChars]

/-- **C1**: reverse-by-lines positioning of a regular file excludes the
final byte from the count, scans backward, and starts display right after
the newline that made the count reach zero (byte 0 when the file has at
most `n` lines); positioning followed by a full drain outputs exactly the
last `n` newline-terminated lines (the whole file when it has fewer),
never counting the trailing byte as an extra empty line. -/
theorem rlines_tail_lines (orc : MapOracle) (fn : String) (lns : List (List Char))
    (n : Nat) (st : OutSt)
    (hwf : ∀ l ∈ lns, NLLine l) (hcap : st.sink.cap = none)
    (hseek : orc.seekFail = false) :
    (forwardM orc ⟨lns.flatten, 0, false⟩ fn .RLINES n true lns.flatten.length st
        = .ok (⟨lns.flatten, lns.flatten.length, false⟩,
            ⟨⟨st.sink.out ++ (lns.drop (lns.length - n)).flatten, st.sink.cap, true⟩,
             st.disp, st.errs⟩))
    ∧ (lns ≠ [] → 1 ≤ n →
        rlinesStart orc.win lns.flatten n = ((lns.take (lns.length - n)).flatten).length) := by
  refine ⟨?_, fun hne hn => rlinesStart_flatten orc.win lns n hwf hne hn⟩
  by_cases hne : lns = []
  · subst hne
    simp only [List.flatten_nil, List.length_nil, List.drop_nil, List.append_nil]
    have hp : posPhaseM orc ⟨[], 0, false⟩ fn .RLINES n true 0 st
        = .ok (.cont ⟨[], 0, false⟩ st) := by
      simp [posPhaseM, writeChars, splitAfterNL]
    rw [forwardM, hp]
    rfl
  · have hsz : 0 < lns.flatten.length := flatten_len_pos lns hwf hne
    have hcne : lns.flatten ≠ [] := by
      intro h
      rw [h] at hsz
      simp at hsz
    by_cases hn : n = 0
    · subst hn
      have hp : posPhaseM orc ⟨lns.flatten, 0, false⟩ fn .RLINES 0 true lns.flatten.length st
          = .ok (.cont ⟨lns.flatten, lns.flatten.length, false⟩ st) := by
        simp [posPhaseM, hsz]
      rw [forwardM, hp]
      have hdr : (lns.drop (lns.length - 0)).flatten = ([] : List Char) := by simp
      rw [hdr, List.append_nil]
      exact drainM_at_end lns.flatten fn st
    · have h1 : 1 ≤ n := by omega
      have hstart : lns.flatten.drop (rlinesStart orc.win lns.flatten n)
          = (lns.drop (lns.length - n)).flatten := by
        rw [rlinesStart_flatten orc.win lns n hwf hne h1, drop_flatten_take]
      have hp : posPhaseM orc ⟨lns.flatten, 0, false⟩ fn .RLINES n true lns.flatten.length st
          = .ok (.cont ⟨lns.flatten, lns.flatten.length, false⟩
              ⟨⟨st.sink.out ++ (lns.drop (lns.length - n)).flatten, none, false⟩,
               st.disp, st.errs⟩) := by
        simp [posPhaseM, hsz, hn,
          rlinesM_ok orc lns.flatten fn n 0 st hcap hseek hcne, hstart]
        intro h
        have hs2 : lns.flatten.length = (List.map List.length lns).sum := by simp
        omega
      rw [forwardM, hp, hcap]
      exact drainM_at_end lns.flatten fn
        ⟨⟨st.sink.out ++ (lns.drop (lns.length - n)).flatten, none, false⟩, st.disp, st.errs⟩

theorem drainM_cap_none (s : CStream) (fn : String) (st : OutSt)
    (hcap : st.sink.cap = none) (hre : s.rdErr = false) :
    drainM s fn st = .ok (⟨s.data, s.data.length, s.rdErr⟩,
      ⟨⟨st.sink.out ++ s.data.drop s.pos, none, true⟩, st.disp, st.errs⟩) := by
  rw [drainM, writeChars_cap_none _ st hcap]
  simp [hre, flushSt]

theorem rlines_tail_lines_wit :
    (∀ l ∈ sampleLines, NLLine l)
    ∧ ((forwardM idOracle ⟨sampleLines.flatten, 0, false⟩ "a.log" .RLINES 2 true
          sampleLines.flatten.length st0
        = .ok (⟨sampleLines.flatten, sampleLines.flatten.length, false⟩,
            ⟨⟨st0.sink.out ++ (sampleLines.drop (sampleLines.length - 2)).flatten,
              st0.sink.cap, true⟩, st0.disp, st0.errs⟩))
      ∧ (sampleLines ≠ [] → 1 ≤ 2 →
          rlinesStart idOracle.win sampleLines.flatten 2
            = ((sampleLines.take (sampleLines.length - 2)).flatten).length)) := by
  have hwf : ∀ l ∈ sampleLines, NLLine l := by
    intro l hl
    fin_cases hl
    · exact ⟨['1'], rfl, by decide⟩
    · exact ⟨['2'], rfl, by decide⟩
    · exact ⟨['3'], rfl, by decide⟩
    · exact ⟨['4'], rfl, by decide⟩
    · exact ⟨['5'], rfl, by decide⟩
  exact ⟨hwf, rlines_tail_lines idOracle "a.log" sampleLines 2 st0 hwf rfl rfl⟩

theorem forwardM_rlines_reg (orc : MapOracle) (c : List Char) (fn : String) (off : Nat)
    (st : OutSt) (hcap : st.sink.cap = none) (hseek : orc.seekFail = false)
    (hc : c ≠ []) (hoff : ¬off = 0) :
    forwardM orc ⟨c, 0, false⟩ fn .RLINES off true c.length st
      = .ok (⟨c, c.length, false⟩,
          ⟨⟨st.sink.out ++ c.drop (rlinesStart orc.win c off), none, true⟩,
           st.disp, st.errs⟩) := by
  have hsz : 0 < c.length := by
    cases c with
    | nil => exact absurd rfl hc
    | cons a r => simp
  have hp : posPhaseM orc ⟨c, 0, false⟩ fn .RLINES off true c.length st
      = .ok (.cont ⟨c, c.length, false⟩
          ⟨⟨st.sink.out ++ c.drop (rlinesStart orc.win c off), none, false⟩,
           st.disp, st.errs⟩) := by
    simp [posPhaseM, hsz, hoff, rlinesM_ok orc c fn off 0 st hcap hseek hc]
  rw [forwardM, hp]
  exact drainM_at_end c fn
    ⟨⟨st.sink.out ++ c.drop (rlinesStart orc.win c off), none, false⟩, st.disp, st.errs⟩

/-- **C10**: after a successful reverse-by-lines positioning of a regular
file, the tail bytes have been written from the mapped view, the stream is
positioned at the end of the file, and the generic drain loop that runs
afterwards reads zero further bytes, so no byte written from the view is
output a second time. -/
theorem rlines_no_reread (orc : MapOracle) (c : List Char) (fn : String) (off : Nat)
    (st : OutSt) (hcap : st.sink.cap = none) (hseek : orc.seekFail = false)
    (hc : c ≠ []) (hoff : ¬off = 0) :
    (rlinesM orc c fn off 0 st
      = .ok ⟨c.length, false,
          ⟨⟨st.sink.out ++ c.drop (rlinesStart orc.win c off), none, false⟩,
           st.disp, st.errs⟩⟩)
    ∧ c.drop c.length = []
    ∧ forwardM orc ⟨c, 0, false⟩ fn .RLINES off true c.length st
        = .ok (⟨c, c.length, false⟩,
            ⟨⟨st.sink.out ++ c.drop (rlinesStart orc.win c off), none, true⟩,
             st.disp, st.errs⟩) :=
  ⟨rlinesM_ok orc c fn off 0 st hcap hseek hc, List.drop_length c,
   forwardM_rlines_reg orc c fn off st hcap hseek hc hoff⟩

theorem rlines_no_reread_wit :
    (st0.sink.cap = none) ∧ (idOracle.seekFail = false)
    ∧ (['x', '\n', 'y', '\n'] ≠ ([] : List Char)) ∧ (¬(1 : Nat) = 0)
    ∧ ((rlinesM idOracle ['x', '\n', 'y', '\n'] "f" 1 0 st0
        = .ok ⟨(['x', '\n', 'y', '\n'] : List Char).length, false,
            ⟨⟨st0.sink.out ++ (['x', '\n', 'y', '\n'] : List Char).drop
                (rlinesStart idOracle.win ['x', '\n', 'y', '\n'] 1), none, false⟩,
             st0.disp, st0.errs⟩⟩)
      ∧ (['x', '\n', 'y', '\n'] : List Char).drop (['x', '\n', 'y', '\n'] : List Char).length = []
      ∧ forwardM idOracle ⟨['x', '\n', 'y', '\n'], 0, false⟩ "f" .RLINES 1 true
            (['x', '\n', 'y', '\n'] : List Char).length st0
          = .ok (⟨['x', '\n', 'y', '\n'], (['x', '\n', 'y', '\n'] : List Char).length, false⟩,
              ⟨⟨st0.sink.out ++ (['x', '\n', 'y', '\n'] : List Char).drop
                  (rlinesStart idOracle.win ['x', '\n', 'y', '\n'] 1), none, true⟩,
               st0.disp, st0.errs⟩)) :=
  ⟨rfl, rfl, by decide, by decide,
   rlines_no_reread idOracle ['x', '\n', 'y', '\n'] "f" 1 st0 rfl rfl (by decide) (by decide)⟩

/-- **C4**: forward-by-bytes with offset 0 is a no-op (the call reduces to
the bare drain); on a regular file the offset is clamped to the file size,
so any offset at least the file size behaves exactly like the file size
itself and the drain output is empty; on a non-seekable stream exactly
`off` bytes are consumed and discarded, stopping early without error at
end-of-file. -/
theorem fbytes_positioning (orc : MapOracle) (c : List Char) (fn : String) (off : Nat)
    (isReg : Bool) (size : Nat) (s : CStream) (st : OutSt)
    (hre : s.rdErr = false) (hpos : s.pos ≤ s.data.length)
    (hcap : st.sink.cap = none) :
    (forwardM orc s fn .FBYTES 0 isReg size st = drainM s fn st)
    ∧ (0 < c.length → c.length ≤ off →
        forwardM orc ⟨c, 0, false⟩ fn .FBYTES off true c.length st
          = forwardM orc ⟨c, 0, false⟩ fn .FBYTES c.length true c.length st
        ∧ forwardM orc ⟨c, 0, false⟩ fn .FBYTES off true c.length st
          = .ok (⟨c, c.length, false⟩,
              ⟨⟨st.sink.out, none, true⟩, st.disp, st.errs⟩))
    ∧ posPhaseM orc s fn .FBYTES off false size st
        = .ok (.cont ⟨s.data, min (s.pos + off) s.data.length, s.rdErr⟩ st) := by
  refine ⟨?_, ?_, ?_⟩
  · rw [forwardM]
    have hp : posPhaseM orc s fn .FBYTES 0 isReg size st = .ok (.cont s st) := by
      simp [posPhaseM]
    rw [hp]
  · intro hsz hge
    have hmin : min off c.length = c.length := by omega
    constructor
    · have hp : ∀ o : Nat, ¬o = 0 → min o c.length = c.length →
          posPhaseM orc ⟨c, 0, false⟩ fn .FBYTES o true c.length st
            = .ok (.cont ⟨c, c.length, false⟩ st) := by
        intro o ho hm
        simp [posPhaseM, ho, hsz, hm]
      rw [forwardM, hp off (by omega) hmin, forwardM,
        hp c.length (by omega) (by omega)]
    · have hp : posPhaseM orc ⟨c, 0, false⟩ fn .FBYTES off true c.length st
          = .ok (.cont ⟨c, c.length, false⟩ st) := by
        simp [posPhaseM, hsz, hmin, show ¬off = 0 by omega]
      rw [forwardM, hp]
      show drainM ⟨c, c.length, false⟩ fn st = _
      rw [drainM_cap_none ⟨c, c.length, false⟩ fn st hcap rfl]
      simp [List.drop_length]
  · by_cases ho : off = 0
    · subst ho
      have hm : min (s.pos + 0) s.data.length = s.pos := by omega
      rw [hm]
      rcases s with ⟨d, p, r⟩
      simp at hre
      subst hre
      simp [posPhaseM]
    · by_cases hav : off ≤ s.data.length - s.pos
      · have hm : min (s.pos + off) s.data.length = s.pos + off := by omega
        rw [hm]
        simp [posPhaseM, ho, hav]
      · have hm : min (s.pos + off) s.data.length = s.data.length := by omega
        rw [hm]
        simp [posPhaseM, ho, hav, hre]

theorem fbytes_positioning_wit :
    ((⟨['a', 'b', 'c'], 0, false⟩ : CStream).rdErr = false)
    ∧ ((⟨['a', 'b', 'c'], 0, false⟩ : CStream).pos
        ≤ (⟨['a', 'b', 'c'], 0, false⟩ : CStream).data.length)
    ∧ (st0.sink.cap = none) ∧ (0 < (['a', 'b', 'c'] : List Char).length)
    ∧ ((['a', 'b', 'c'] : List Char).length ≤ 7)
    ∧ ((forwardM idOracle ⟨['a', 'b', 'c'], 0, false⟩ "f" .FBYTES 0 true 3 st0
          = drainM ⟨['a', 'b', 'c'], 0, false⟩ "f" st0)
      ∧ (forwardM idOracle ⟨['a', 'b', 'c'], 0, false⟩ "f" .FBYTES 7 true
            (['a', 'b', 'c'] : List Char).length st0
          = forwardM idOracle ⟨['a', 'b', 'c'], 0, false⟩ "f" .FBYTES
              (['a', 'b', 'c'] : List Char).length true (['a', 'b', 'c'] : List Char).length st0
        ∧ forwardM idOracle ⟨['a', 'b', 'c'], 0, false⟩ "f" .FBYTES 7 true
              (['a', 'b', 'c'] : List Char).length st0
          = .ok (⟨['a', 'b', 'c'], (['a', 'b', 'c'] : List Char).length, false⟩,
              ⟨⟨st0.sink.out, none, true⟩, st0.disp, st0.errs⟩))
      ∧ posPhaseM idOracle ⟨['a', 'b', 'c'], 0, false⟩ "f" .FBYTES 7 false 3 st0
          = .ok (.cont ⟨(⟨['a', 'b', 'c'], 0, false⟩ : CStream).data,
              min ((⟨['a', 'b', 'c'], 0, false⟩ : CStream).pos + 7)
                (⟨['a', 'b', 'c'], 0, false⟩ : CStream).data.length,
              (⟨['a', 'b', 'c'], 0, false⟩ : CStream).rdErr⟩ st0)) := by
  refine ⟨rfl, by decide, rfl, by decide, by decide, ?_⟩
  have h := fbytes_positioning idOracle ['a', 'b', 'c'] "f" 7 true 3
    ⟨['a', 'b', 'c'], 0, false⟩ st0 rfl (by decide) rfl
  exact ⟨h.1, h.2.1 (by decide) (by decide), h.2.2⟩

/-- **C5**: reverse-by-bytes positioning of a regular file seeks the
stream to `fileSize - offset` whenever `offset ≤ fileSize` and otherwise
leaves it at the start of the file, so the subsequent drain emits exactly
the last `min(offset, fileSize)` bytes. -/
theorem rbytes_positioning (orc : MapOracle) (c : List Char) (fn : String) (off : Nat)
    (st : OutSt) (hcap : st.sink.cap = none) :
    (0 < c.length →
      posPhaseM orc ⟨c, 0, false⟩ fn .RBYTES off true c.length st
        = .ok (.cont ⟨c, c.length - min off c.length, false⟩ st))
    ∧ forwardM orc ⟨c, 0, false⟩ fn .RBYTES off true c.length st
        = .ok (⟨c, c.length, false⟩,
            ⟨⟨st.sink.out ++ c.drop (c.length - min off c.length), none, true⟩,
             st.disp, st.errs⟩) := by
  have hpp : 0 < c.length →
      posPhaseM orc ⟨c, 0, false⟩ fn .RBYTES off true c.length st
        = .ok (.cont ⟨c, c.length - min off c.length, false⟩ st) := by
    intro hsz
    by_cases hle : off ≤ c.length
    · have hm : min off c.length = off := by omega
      rw [hm]
      simp [posPhaseM, hsz, hle]
    · have hm : min off c.length = c.length := by omega
      rw [hm]
      have hz : c.length - c.length = 0 := by omega
      rw [hz]
      simp [posPhaseM, hsz, hle]
  refine ⟨hpp, ?_⟩
  by_cases hsz : 0 < c.length
  · rw [forwardM, hpp hsz]
    exact drainM_cap_none ⟨c, c.length - min off c.length, false⟩ fn st hcap rfl
  · have hc : c = [] := by
      cases c with
      | nil => rfl
      | cons a r => simp at hsz
    subst hc
    simp only [List.length_nil, List.drop_nil, List.append_nil]
    rw [← hcap]
    by_cases ho : off = 0
    · subst ho
      have hp : posPhaseM orc ⟨[], 0, false⟩ fn .RBYTES 0 true 0 st
          = .ok (.cont ⟨[], 0, false⟩ st) := by
        simp [posPhaseM]
      rw [forwardM, hp]
      rfl
    · have hp : posPhaseM orc ⟨[], 0, false⟩ fn .RBYTES off true 0 st
          = .ok (.cont ⟨[], 0, false⟩ st) := by
        simp [posPhaseM, ho, writeChars]
      rw [forwardM, hp]
      rfl

theorem rbytes_positioning_wit :
    (st0.sink.cap = none)
    ∧ ((0 < (['a', 'b', 'c', 'd'] : List Char).length →
        posPhaseM idOracle ⟨['a', 'b', 'c', 'd'], 0, false⟩ "f" .RBYTES 3 true
            (['a', 'b', 'c', 'd'] : List Char).length st0
          = .ok (.cont ⟨['a', 'b', 'c', 'd'],
              (['a', 'b', 'c', 'd'] : List Char).length - min 3 (['a', 'b', 'c', 'd'] : List Char).length,
              false⟩ st0))
      ∧ forwardM idOracle ⟨['a', 'b', 'c', 'd'], 0, false⟩ "f" .RBYTES 3 true
            (['a', 'b', 'c', 'd'] : List Char).length st0
          = .ok (⟨['a', 'b', 'c', 'd'], (['a', 'b', 'c', 'd'] : List Char).length, false⟩,
              ⟨⟨st0.sink.out ++ (['a', 'b', 'c', 'd'] : List Char).drop
                  ((['a', 'b', 'c', 'd'] : List Char).length
                    - min 3 (['a', 'b', 'c', 'd'] : List Char).length), none, true⟩,
               st0.disp, st0.errs⟩)) :=
  ⟨rfl, rbytes_positioning idOracle ['a', 'b', 'c', 'd'] "f" 3 st0 rfl⟩

/-! ### Lemmas about the header step and `show` -/

theorem showHdrSt_cap (fl : Flags) (i : Nat) (name : String) (bytes : List Char)
    (st : OutSt) : (showHdrSt fl i name bytes st).sink.cap = st.sink.cap := by
  rw [showHdrSt]
  by_cases hb : bytes = []
  · rw [if_pos hb]
  · rw [if_neg hb]
    by_cases hl : st.disp.last = some i
    · rw [if_pos hl]
    · rw [if_neg hl]
      by_cases hq : showPolicy fl = true
      · simp [hq, printfnM]
      · simp [hq]

theorem showHdrSt_errs (fl : Flags) (i : Nat) (name : String) (bytes : List Char)
    (st : OutSt) : (showHdrSt fl i name bytes st).errs = st.errs := by
  rw [showHdrSt]
  by_cases hb : bytes = []
  · rw [if_pos hb]
  · rw [if_neg hb]
    by_cases hl : st.disp.last = some i
    · rw [if_pos hl]
    · rw [if_neg hl]
      by_cases hq : showPolicy fl = true
      · simp [hq, printfnM]
      · simp [hq]

theorem showHdrSt_out (fl : Flags) (i : Nat) (name : String) (bytes : List Char)
    (st : OutSt) :
    (showHdrSt fl i name bytes st).sink.out = st.sink.out ++
      (if bytes ≠ [] ∧ st.disp.last ≠ some i ∧ showPolicy fl = true
       then hdrOf st name else []) := by
  rw [showHdrSt]
  by_cases hb : bytes = []
  · simp [hb]
  · rw [if_neg hb]
    by_cases hl : st.disp.last = some i
    · simp [hb, hl]
    · rw [if_neg hl]
      by_cases hq : showPolicy fl = true
      · simp [hb, hl, hq, printfnM, hdrOf]
      · simp [hb, hl, hq]

theorem showHdrSt_last (fl : Flags) (i : Nat) (name : String) (bytes : List Char)
    (st : OutSt) :
    (showHdrSt fl i name bytes st).disp.last
      = if bytes = [] then st.disp.last else some i := by
  rw [showHdrSt]
  by_cases hb : bytes = []
  · simp [hb]
  · simp only [if_neg hb]
    by_cases hl : st.disp.last = some i
    · simp [hl]
    · rw [if_neg hl]

theorem showHdrSt_nopolicy (fl : Flags) (i : Nat) (name : String) (bytes : List Char)
    (st : OutSt) (hq : showPolicy fl = false) (hb : bytes ≠ []) :
    showHdrSt fl i name bytes st = ⟨st.sink, ⟨some i, st.disp.hfirst⟩, st.errs⟩ := by
  rw [showHdrSt, if_neg hb]
  by_cases hl : st.disp.last = some i
  · rw [if_pos hl]
    rcases st with ⟨sk, ⟨lst, hf⟩, er⟩
    simp at hl
    subst hl
    rfl
  · rw [if_neg hl]
    simp [hq]

theorem showM_ok (fl : Flags) (i : Nat) (f : FileInfoM) (s : CStream) (st : OutSt)
    (hfp : f.fp = some s) (hcap : st.sink.cap = none) :
    showM fl i f st = .ok (showRes fl i f s st) := by
  rcases f with ⟨nm, fp, idt, rg, sd⟩
  simp only at hfp
  subst hfp
  have hcap0 : (showHdrSt fl i nm (s.data.drop s.pos) st).sink.cap = none := by
    rw [showHdrSt_cap]
    exact hcap
  simp only [showM]
  rw [writeChars_cap_none _ _ hcap0]
  rw [showRes]
  by_cases hr : s.rdErr = true
  · simp [hr, flushSt]
  · simp [hr, flushSt]

/-- **C3**: a header identifying the file is emitted exactly when the file
is about to produce output and differs from the display cursor's file, is
suppressed by quiet mode with a single tracked file, forced by verbose
mode, and the cursor follows the file that last produced output; in the
two-file non-follow scenario each header appears exactly once, in argument
order. -/
theorem header_emission (fl : Flags) (i : Nat) (name : String) (bytes : List Char)
    (st : OutSt) (q F : Bool) (n : Nat) :
    ((showHdrSt fl i name bytes st).sink.out = st.sink.out ++
      (if bytes ≠ [] ∧ st.disp.last ≠ some i ∧ showPolicy fl = true
       then hdrOf st name else []))
    ∧ ((showHdrSt fl i name bytes st).disp.last
        = if bytes = [] then st.disp.last else some i)
    ∧ showPolicy ⟨F, true, q, n⟩ = true
    ∧ showPolicy ⟨F, false, true, 1⟩ = false
    ∧ nfRun idOracle .FBYTES 0 ⟨false, false, false, 2⟩ 0
        [("a", ⟨['A', '\n'], 0, false⟩, true), ("b", ⟨['B', '\n'], 0, false⟩, true)] st0
      = .ok ⟨⟨String.toList "==> a <==\nA\n\n==> b <==\nB\n", none, true⟩,
          ⟨some 1, false⟩, []⟩ := by
  refine ⟨showHdrSt_out fl i name bytes st, showHdrSt_last fl i name bytes st,
    by simp [showPolicy], by simp [showPolicy], ?_⟩
  rfl

theorem traverseFiles_single (g : Nat → FileInfoM → OutSt → Except OutSt (FileInfoM × OutSt))
    (i : Nat) (f : FileInfoM) (st : OutSt) :
    traverseFiles g i [f] st = match g i f st with
      | .error e => .error e
      | .ok (f1, st1) => .ok ([f1], st1) := by
  cases hg : g i f st with
  | error e => simp [traverseFiles, hg]
  | ok p =>
    rcases p with ⟨f1, st1⟩
    simp [traverseFiles, hg]

theorem traverseFiles_pair (g : Nat → FileInfoM → OutSt → Except OutSt (FileInfoM × OutSt))
    (i : Nat) (f f' : FileInfoM) (st : OutSt) :
    traverseFiles g i [f, f'] st = match g i f st with
      | .error e => .error e
      | .ok (f1, st1) =>
        match g (i + 1) f' st1 with
        | .error e => .error e
        | .ok (f2, st2) => .ok ([f1, f2], st2) := by
  cases hg : g i f st with
  | error e => simp [traverseFiles, hg]
  | ok p =>
    rcases p with ⟨f1, st1⟩
    cases hg2 : g (i + 1) f' st1 with
    | error e => simp [traverseFiles, hg, hg2]
    | ok p2 =>
      rcases p2 with ⟨f2, st2⟩
      simp [traverseFiles, hg, hg2]

theorem showM_noop (fl : Flags) (i : Nat) (nm : String) (dat : List Char) (idt : Ident)
    (rg sd : Bool) (st : OutSt) (hcap : st.sink.cap = none) :
    showM fl i ⟨nm, some ⟨dat, dat.length, false⟩, idt, rg, sd⟩ st
      = .ok (⟨nm, some ⟨dat, dat.length, false⟩, idt, rg, sd⟩, flushSt st) := by
  rw [showM_ok fl i _ ⟨dat, dat.length, false⟩ st rfl hcap, showRes]
  rcases st with ⟨⟨o, cp, flg⟩, dsp, er⟩
  simp at hcap
  subst hcap
  simp [showHdrSt, List.drop_length, flushSt]

theorem showM_quiet (fl : Flags) (i : Nat) (nm : String) (dat : List Char) (p : Nat)
    (idt : Ident) (rg sd : Bool) (st : OutSt) (hcap : st.sink.cap = none)
    (hpol : showPolicy fl = false) (hne : dat.drop p ≠ []) :
    showM fl i ⟨nm, some ⟨dat, p, false⟩, idt, rg, sd⟩ st
      = .ok (⟨nm, some ⟨dat, dat.length, false⟩, idt, rg, sd⟩,
          ⟨⟨st.sink.out ++ dat.drop p, none, true⟩, ⟨some i, st.disp.hfirst⟩, st.errs⟩) := by
  rw [showM_ok fl i _ ⟨dat, p, false⟩ st rfl hcap, showRes]
  rw [showHdrSt_nopolicy fl i nm (dat.drop p) st hpol hne]
  rfl

theorem showM_quiet_err (fl : Flags) (i : Nat) (nm : String) (dat : List Char) (p : Nat)
    (idt : Ident) (rg sd : Bool) (st : OutSt) (hcap : st.sink.cap = none)
    (hpol : showPolicy fl = false) (hne : dat.drop p ≠ []) :
    showM fl i ⟨nm, some ⟨dat, p, true⟩, idt, rg, sd⟩ st
      = .ok (⟨nm, none, idt, rg, sd⟩,
          ⟨⟨st.sink.out ++ dat.drop p, none, true⟩, ⟨some i, st.disp.hfirst⟩,
           st.errs ++ [nm]⟩) := by
  rw [showM_ok fl i _ ⟨dat, p, true⟩ st rfl hcap, showRes]
  rw [showHdrSt_nopolicy fl i nm (dat.drop p) st hpol hne]
  rfl

theorem followCycleM_single_F (fs : String → Option (List Char × Ident)) (fl : Flags)
    (f : FileInfoM) (st : OutSt) (f1 : FileInfoM) (st1 : OutSt) (f2 : FileInfoM) (st2 : OutSt)
    (hFf : fl.Fflag = true)
    (hchk : checkFileF fs fl 0 f st = .ok (f1, st1))
    (hshow : showIfOpen fl 0 f1 st1 = .ok (f2, st2)) :
    followCycleM fs fl [f] st = .ok ([f2], st2) := by
  simp only [followCycleM, hFf, if_true, eq_self_iff_true, traverseFiles_single, hchk, hshow]

theorem followCycleM_single_noF (fs : String → Option (List Char × Ident)) (fl : Flags)
    (f : FileInfoM) (st : OutSt) (f2 : FileInfoM) (st2 : OutSt)
    (hFf : fl.Fflag = false)
    (hshow : showIfOpen fl 0 f st = .ok (f2, st2)) :
    followCycleM fs fl [f] st = .ok ([f2], st2) := by
  simp only [followCycleM, hFf, Bool.false_eq_true, if_false, traverseFiles_single, hshow]

theorem followCycleM_pair_F (fs : String → Option (List Char × Ident)) (fl : Flags)
    (fa fb : FileInfoM) (st : OutSt) (fa1 fb1 : FileInfoM) (st1 st2 : OutSt)
    (fa2 fb2 : FileInfoM) (st3 st4 : OutSt)
    (hFf : fl.Fflag = true)
    (hca : checkFileF fs fl 0 fa st = .ok (fa1, st1))
    (hcb : checkFileF fs fl 1 fb st1 = .ok (fb1, st2))
    (hsa : showIfOpen fl 0 fa1 st2 = .ok (fa2, st3))
    (hsb : showIfOpen fl 1 fb1 st3 = .ok (fb2, st4)) :
    followCycleM fs fl [fa, fb] st = .ok ([fa2, fb2], st4) := by
  simp only [followCycleM, hFf, if_true, eq_self_iff_true, traverseFiles_pair,
    Nat.zero_add, hca, hcb, hsa, hsb]

theorem followCycleM_pair_noF (fs : String → Option (List Char × Ident)) (fl : Flags)
    (fa fb : FileInfoM) (st : OutSt) (fa2 fb2 : FileInfoM) (st3 st4 : OutSt)
    (hFf : fl.Fflag = false)
    (hsa : showIfOpen fl 0 fa st = .ok (fa2, st3))
    (hsb : showIfOpen fl 1 fb st3 = .ok (fb2, st4)) :
    followCycleM fs fl [fa, fb] st = .ok ([fa2, fb2], st4) := by
  simp only [followCycleM, hFf, Bool.false_eq_true, if_false, traverseFiles_pair,
    Nat.zero_add, hsa, hsb]

/-- **C2**: when a poll detects an identity change (different inode or
device, or zero link count), the cycle first drains all remaining bytes of
the old stream, closes it and adopts the freshly opened stream and
identity, and the same cycle then shows the new incarnation from its
start: the cycle's output is exactly the old stream's unshown remainder
followed by the whole new content — nothing lost, nothing duplicated. -/
theorem rotation_drain_then_adopt (fs : String → Option (List Char × Ident))
    (fl : Flags) (nm : String) (d c2 : List Char) (p : Nat) (id1 id2 : Ident)
    (st : OutSt)
    (hFf : fl.Fflag = true) (hpol : showPolicy fl = false)
    (hcap : st.sink.cap = none)
    (hfs : fs nm = some (c2, id2))
    (hid : id2.ino ≠ id1.ino ∨ id2.dev ≠ id1.dev ∨ id2.nlink = 0)
    (hd : d.drop p ≠ []) (hc2 : c2 ≠ []) :
    followCycleM fs fl [⟨nm, some ⟨d, p, false⟩, id1, true, false⟩] st
      = .ok ([⟨nm, some ⟨c2, c2.length, false⟩, id2, true, false⟩],
          ⟨⟨st.sink.out ++ d.drop p ++ c2, none, true⟩,
           ⟨some 0, st.disp.hfirst⟩, st.errs⟩) := by
  have hchk : checkFileF fs fl 0 ⟨nm, some ⟨d, p, false⟩, id1, true, false⟩ st
      = .ok (⟨nm, some ⟨c2, 0, false⟩, id2, true, false⟩,
          ⟨⟨st.sink.out ++ d.drop p, none, true⟩, ⟨some 0, st.disp.hfirst⟩, st.errs⟩) := by
    simp only [checkFileF, hfs]
    rw [if_neg (show ¬(false = true) by simp)]
    rw [if_pos hid]
    rw [showM_quiet fl 0 nm d p id1 true false st hcap hpol hd]
  have hshow : showM fl 0 ⟨nm, some ⟨c2, 0, false⟩, id2, true, false⟩
      ⟨⟨st.sink.out ++ d.drop p, none, true⟩, ⟨some 0, st.disp.hfirst⟩, st.errs⟩
      = .ok (⟨nm, some ⟨c2, c2.length, false⟩, id2, true, false⟩,
          ⟨⟨st.sink.out ++ d.drop p ++ c2, none, true⟩,
           ⟨some 0, st.disp.hfirst⟩, st.errs⟩) := by
    have h := showM_quiet fl 0 nm c2 0 id2 true false
      ⟨⟨st.sink.out ++ d.drop p, none, true⟩, ⟨some 0, st.disp.hfirst⟩, st.errs⟩
      rfl hpol (by simpa using hc2)
    rw [h]
    simp
  exact followCycleM_single_F fs fl _ st _ _ _ _ hFf hchk
    (by rw [showIfOpen]
        simp only [Option.isSome_some, if_true]
        rw [hshow])

theorem checkFileF_keep (fs : String → Option (List Char × Ident)) (fl : Flags)
    (i : Nat) (nm : String) (s : CStream) (idt : Ident) (c2 : List Char) (id2 : Ident)
    (st : OutSt) (hfs : fs nm = some (c2, id2))
    (hid : ¬(id2.ino ≠ idt.ino ∨ id2.dev ≠ idt.dev ∨ id2.nlink = 0)) :
    checkFileF fs fl i ⟨nm, some s, idt, true, false⟩ st
      = .ok (⟨nm, some s, idt, true, false⟩, st) := by
  simp only [checkFileF, hfs]
  rw [if_neg (show ¬(false = true) by simp)]
  rw [if_neg hid]

theorem checkFileF_reopen (fs : String → Option (List Char × Ident)) (fl : Flags)
    (i : Nat) (nm : String) (idt : Ident) (c2 : List Char) (id2 : Ident) (st : OutSt)
    (hfs : fs nm = some (c2, id2)) :
    checkFileF fs fl i ⟨nm, none, idt, true, false⟩ st
      = .ok (⟨nm, some ⟨c2, 0, false⟩, id2, true, false⟩, st) := by
  simp only [checkFileF, hfs]

theorem showIfOpen_closed (fl : Flags) (i : Nat) (nm : String) (idt : Ident)
    (rg sd : Bool) (st : OutSt) :
    showIfOpen fl i ⟨nm, none, idt, rg, sd⟩ st = .ok (⟨nm, none, idt, rg, sd⟩, st) := rfl

theorem showIfOpen_open (fl : Flags) (i : Nat) (f : FileInfoM) (s : CStream) (st : OutSt)
    (r : Except OutSt (FileInfoM × OutSt)) (hfp : f.fp = some s)
    (h : showM fl i f st = r) : showIfOpen fl i f st = r := by
  rw [showIfOpen, hfp]
  simp only [Option.isSome_some, if_true]
  exact h

/-- **C7 counterexample**: with reopening disabled (`-f` without `-F`), a
read error on a tracked file closes it for good — the next poll cycle does
not retry it (the file stays absent and produces nothing), even though the
path would open successfully — contradicting the claim that the file is
always retried on the next pass. -/
theorem readerr_no_retry_cex :
    followCycleM (fun _ => some (['z'], ⟨1, 1, 1⟩)) ⟨false, false, false, 1⟩
        [⟨"a", some ⟨['x', 'y'], 0, true⟩, ⟨1, 1, 1⟩, true, false⟩] st0
      = .ok ([⟨"a", none, ⟨1, 1, 1⟩, true, false⟩],
          ⟨⟨['x', 'y'], none, true⟩, ⟨some 0, true⟩, ["a"]⟩)
    ∧ followCycleM (fun _ => some (['z'], ⟨1, 1, 1⟩)) ⟨false, false, false, 1⟩
        [⟨"a", none, ⟨1, 1, 1⟩, true, false⟩]
        ⟨⟨['x', 'y'], none, true⟩, ⟨some 0, true⟩, ["a"]⟩
      = .ok ([⟨"a", none, ⟨1, 1, 1⟩, true, false⟩],
          ⟨⟨['x', 'y'], none, true⟩, ⟨some 0, true⟩, ["a"]⟩) :=
  ⟨rfl, rfl⟩

/-- **C7 (amended)**: a transient read error on one tracked file in follow
mode is reported with the file's name, closes that file's stream, and
never terminates the loop nor affects the other tracked file; with
reopening enabled the file is reopened from scratch and shown again on the
next pass, while with reopening disabled it is never retried. -/
theorem readerr_semantics (d z w e2 : List Char) (p q2 : Nat) (ida idb : Ident)
    (st st2 : OutSt)
    (hcap : st.sink.cap = none) (hcap2 : st2.sink.cap = none)
    (hd : d.drop p ≠ []) (hb2 : e2.drop q2 ≠ []) (hz : z ≠ [])
    (hna : ida.nlink ≠ 0) (hnb : idb.nlink ≠ 0) :
    (followCycleM (fun nm => if nm = "a" then some (z, ida) else some (w, idb))
        ⟨false, false, true, 2⟩
        [⟨"a", some ⟨d, p, true⟩, ida, true, false⟩,
         ⟨"b", some ⟨e2, q2, false⟩, idb, true, false⟩] st
      = .ok ([⟨"a", none, ida, true, false⟩,
              ⟨"b", some ⟨e2, e2.length, false⟩, idb, true, false⟩],
          ⟨⟨st.sink.out ++ d.drop p ++ e2.drop q2, none, true⟩,
           ⟨some 1, st.disp.hfirst⟩, st.errs ++ ["a"]⟩))
    ∧ (followCycleM (fun nm => if nm = "a" then some (z, ida) else some (w, idb))
        ⟨false, false, true, 2⟩
        [⟨"a", none, ida, true, false⟩,
         ⟨"b", some ⟨e2, e2.length, false⟩, idb, true, false⟩] st2
      = .ok ([⟨"a", none, ida, true, false⟩,
              ⟨"b", some ⟨e2, e2.length, false⟩, idb, true, false⟩], flushSt st2))
    ∧ (followCycleM (fun nm => if nm = "a" then some (z, ida) else some (w, idb))
        ⟨true, false, true, 2⟩
        [⟨"a", some ⟨d, p, true⟩, ida, true, false⟩,
         ⟨"b", some ⟨e2, q2, false⟩, idb, true, false⟩] st
      = .ok ([⟨"a", none, ida, true, false⟩,
              ⟨"b", some ⟨e2, e2.length, false⟩, idb, true, false⟩],
          ⟨⟨st.sink.out ++ d.drop p ++ e2.drop q2, none, true⟩,
           ⟨some 1, st.disp.hfirst⟩, st.errs ++ ["a"]⟩))
    ∧ (followCycleM (fun nm => if nm = "a" then some (z, ida) else some (w, idb))
        ⟨true, false, true, 2⟩
        [⟨"a", none, ida, true, false⟩,
         ⟨"b", some ⟨e2, e2.length, false⟩, idb, true, false⟩] st2
      = .ok ([⟨"a", some ⟨z, z.length, false⟩, ida, true, false⟩,
              ⟨"b", some ⟨e2, e2.length, false⟩, idb, true, false⟩],
          ⟨⟨st2.sink.out ++ z, none, true⟩, ⟨some 0, st2.disp.hfirst⟩, st2.errs⟩)) := by
  have hfsa : (fun nm => if nm = "a" then some (z, ida) else some (w, idb)) "a"
      = some (z, ida) := by simp
  have hfsb : (fun nm => if nm = "a" then some (z, ida) else some (w, idb)) "b"
      = some (w, idb) := by simp
  have hkeepa : ¬(ida.ino ≠ ida.ino ∨ ida.dev ≠ ida.dev ∨ ida.nlink = 0) := by
    intro h
    rcases h with h | h | h
    · exact h rfl
    · exact h rfl
    · exact hna h
  have hkeepb : ¬(idb.ino ≠ idb.ino ∨ idb.dev ≠ idb.dev ∨ idb.nlink = 0) := by
    intro h
    rcases h with h | h | h
    · exact h rfl
    · exact h rfl
    · exact hnb h
  have hpol : showPolicy ⟨false, false, true, 2⟩ = false := by simp [showPolicy]
  have hpolF : showPolicy ⟨true, false, true, 2⟩ = false := by simp [showPolicy]
  refine ⟨?_, ?_, ?_, ?_⟩
  · exact followCycleM_pair_noF _ _ _ _ st _ _ _ _ rfl
      (showIfOpen_open _ 0 _ ⟨d, p, true⟩ st _ rfl
        (showM_quiet_err _ 0 "a" d p ida true false st hcap hpol hd))
      (showIfOpen_open _ 1 _ ⟨e2, q2, false⟩ _ _ rfl
        (showM_quiet _ 1 "b" e2 q2 idb true false _ rfl hpol hb2))
  · exact followCycleM_pair_noF _ _ _ _ st2 _ _ _ _ rfl
      (showIfOpen_closed _ 0 "a" ida true false st2)
      (showIfOpen_open _ 1 _ ⟨e2, e2.length, false⟩ st2 _ rfl
        (showM_noop _ 1 "b" e2 idb true false st2 hcap2))
  · exact followCycleM_pair_F _ _ _ _ st _ _ st st _ _ _ _ rfl
      (checkFileF_keep _ _ 0 "a" ⟨d, p, true⟩ ida z ida st hfsa hkeepa)
      (checkFileF_keep _ _ 1 "b" ⟨e2, q2, false⟩ idb w idb st hfsb hkeepb)
      (showIfOpen_open _ 0 _ ⟨d, p, true⟩ st _ rfl
        (showM_quiet_err _ 0 "a" d p ida true false st hcap hpolF hd))
      (showIfOpen_open _ 1 _ ⟨e2, q2, false⟩ _ _ rfl
        (showM_quiet _ 1 "b" e2 q2 idb true false _ rfl hpolF hb2))
  · have hz0 : z.drop 0 ≠ [] := by simpa using hz
    have hshow0 : showM ⟨true, false, true, 2⟩ 0
        ⟨"a", some ⟨z, 0, false⟩, ida, true, false⟩ st2
        = .ok (⟨"a", some ⟨z, z.length, false⟩, ida, true, false⟩,
            ⟨⟨st2.sink.out ++ z, none, true⟩, ⟨some 0, st2.disp.hfirst⟩, st2.errs⟩) := by
      have h := showM_quiet ⟨true, false, true, 2⟩ 0 "a" z 0 ida true false st2 hcap2 hpolF hz0
      rw [h]
      simp
    exact followCycleM_pair_F _ _ _ _ st2 _ _ st2 st2 _ _ _ _ rfl
      (checkFileF_reopen _ _ 0 "a" ida z ida st2 hfsa)
      (checkFileF_keep _ _ 1 "b" ⟨e2, e2.length, false⟩ idb w idb st2 hfsb hkeepb)
      (showIfOpen_open _ 0 _ ⟨z, 0, false⟩ st2 _ rfl hshow0)
      (showIfOpen_open _ 1 _ ⟨e2, e2.length, false⟩ _ _ rfl
        (showM_noop _ 1 "b" e2 idb true false _ rfl))

theorem readerr_semantics_wit :
    (st0.sink.cap = none) ∧ (st0.sink.cap = none)
    ∧ ((['x'] : List Char).drop 0 ≠ []) ∧ ((['u'] : List Char).drop 0 ≠ [])
    ∧ (['z'] ≠ ([] : List Char))
    ∧ ((⟨1, 1, 1⟩ : Ident).nlink ≠ 0) ∧ ((⟨2, 2, 1⟩ : Ident).nlink ≠ 0)
    ∧ ((followCycleM (fun nm => if nm = "a" then some (['z'], ⟨1, 1, 1⟩)
            else some (['u'], ⟨2, 2, 1⟩)) ⟨false, false, true, 2⟩
          [⟨"a", some ⟨['x'], 0, true⟩, ⟨1, 1, 1⟩, true, false⟩,
           ⟨"b", some ⟨['u'], 0, false⟩, ⟨2, 2, 1⟩, true, false⟩] st0
        = .ok ([⟨"a", none, ⟨1, 1, 1⟩, true, false⟩,
                ⟨"b", some ⟨['u'], (['u'] : List Char).length, false⟩, ⟨2, 2, 1⟩, true, false⟩],
            ⟨⟨st0.sink.out ++ (['x'] : List Char).drop 0 ++ (['u'] : List Char).drop 0,
              none, true⟩, ⟨some 1, st0.disp.hfirst⟩, st0.errs ++ ["a"]⟩))
      ∧ (followCycleM (fun nm => if nm = "a" then some (['z'], ⟨1, 1, 1⟩)
            else some (['u'], ⟨2, 2, 1⟩)) ⟨false, false, true, 2⟩
          [⟨"a", none, ⟨1, 1, 1⟩, true, false⟩,
           ⟨"b", some ⟨['u'], (['u'] : List Char).length, false⟩, ⟨2, 2, 1⟩, true, false⟩] st0
        = .ok ([⟨"a", none, ⟨1, 1, 1⟩, true, false⟩,
                ⟨"b", some ⟨['u'], (['u'] : List Char).length, false⟩, ⟨2, 2, 1⟩, true, false⟩],
            flushSt st0))
      ∧ (followCycleM (fun nm => if nm = "a" then some (['z'], ⟨1, 1, 1⟩)
            else some (['u'], ⟨2, 2, 1⟩)) ⟨true, false, true, 2⟩
          [⟨"a", some ⟨['x'], 0, true⟩, ⟨1, 1, 1⟩, true, false⟩,
           ⟨"b", some ⟨['u'], 0, false⟩, ⟨2, 2, 1⟩, true, false⟩] st0
        = .ok ([⟨"a", none, ⟨1, 1, 1⟩, true, false⟩,
                ⟨"b", some ⟨['u'], (['u'] : List Char).length, false⟩, ⟨2, 2, 1⟩, true, false⟩],
            ⟨⟨st0.sink.out ++ (['x'] : List Char).drop 0 ++ (['u'] : List Char).drop 0,
              none, true⟩, ⟨some 1, st0.disp.hfirst⟩, st0.errs ++ ["a"]⟩))
      ∧ (followCycleM (fun nm => if nm = "a" then some (['z'], ⟨1, 1, 1⟩)
            else some (['u'], ⟨2, 2, 1⟩)) ⟨true, false, true, 2⟩
          [⟨"a", none, ⟨1, 1, 1⟩, true, false⟩,
           ⟨"b", some ⟨['u'], (['u'] : List Char).length, false⟩, ⟨2, 2, 1⟩, true, false⟩] st0
        = .ok ([⟨"a", some ⟨['z'], (['z'] : List Char).length, false⟩, ⟨1, 1, 1⟩, true, false⟩,
                ⟨"b", some ⟨['u'], (['u'] : List Char).length, false⟩, ⟨2, 2, 1⟩, true, false⟩],
            ⟨⟨st0.sink.out ++ ['z'], none, true⟩, ⟨some 0, st0.disp.hfirst⟩, st0.errs⟩))) :=
  ⟨rfl, rfl, by decide, by decide, by decide, by decide, by decide,
   readerr_semantics ['x'] ['z'] ['u'] ['u'] 0 0 ⟨1, 1, 1⟩ ⟨2, 2, 1⟩ st0 st0
     rfl rfl (by decide) (by decide) (by decide) (by decide) (by decide)⟩

theorem writeChars_fail_now (st : OutSt) (l : List Char)
    (hcap : st.sink.cap = some st.sink.out.length) (hl : l ≠ []) :
    writeChars st l = .error st := by
  cases l with
  | nil => exact absurd rfl hl
  | cons ch r =>
    rw [writeChars]
    simp [Sink.putc, hcap]

/-- **C6 counterexample**: the drain at the end of `forward` that ends in
a read error returns before the `fflush` on forward.c:175, so the sink is
not flushed after that drain — against the claim that the sink is flushed
after every drain. -/
theorem drain_flush_cex :
    drainM ⟨['x'], 0, true⟩ "f" st0
      = .ok (⟨['x'], 1, true⟩, ⟨⟨['x'], none, false⟩, ⟨none, true⟩, ["f"]⟩)
    ∧ (⟨⟨['x'], none, false⟩, ⟨none, true⟩, ["f"]⟩ : OutSt).sink.flushed = false :=
  ⟨rfl, rfl⟩

/-- **C6 (amended)**: the drain copies the positioned stream byte-for-byte
until end-of-file; a write failure to the sink is fatal to the whole run;
a read failure is reported tagged with the file's name and aborts only
that file's drain, but the `forward` drain then returns without flushing;
the sink is flushed after every drain that completes without a read error,
and the follow-mode drain (`show`) flushes even on a read error. -/
theorem drain_semantics (s : CStream) (fn : String) (st stc : OutSt) (orc : MapOracle)
    (isReg : Bool) (size : Nat) (fl : Flags) (i : Nat) (f : FileInfoM)
    (hcap : st.sink.cap = none) (hfl : st.sink.flushed = false)
    (hcapc : stc.sink.cap = some stc.sink.out.length) :
    (s.rdErr = false →
      drainM s fn st = .ok (⟨s.data, s.data.length, s.rdErr⟩,
        ⟨⟨st.sink.out ++ s.data.drop s.pos, none, true⟩, st.disp, st.errs⟩))
    ∧ (s.rdErr = true →
      drainM s fn st = .ok (⟨s.data, s.data.length, s.rdErr⟩,
        ⟨⟨st.sink.out ++ s.data.drop s.pos, none, false⟩, st.disp, st.errs ++ [fn]⟩))
    ∧ (s.data.drop s.pos ≠ [] → drainM s fn stc = .error stc)
    ∧ (s.data.drop s.pos ≠ [] →
        forwardM orc s fn .FBYTES 0 isReg size stc = .error stc)
    ∧ (f.fp = some s → showM fl i f st = .ok (showRes fl i f s st)
        ∧ (showRes fl i f s st).2.sink.flushed = true) := by
  have hdrainc : s.data.drop s.pos ≠ [] → drainM s fn stc = .error stc := by
    intro hne
    rw [drainM, writeChars_fail_now stc _ hcapc hne]
  refine ⟨fun hre => drainM_cap_none s fn st hcap hre, ?_, hdrainc, ?_, ?_⟩
  · intro hre
    rw [drainM, writeChars_cap_none _ _ hcap]
    simp [hre, hfl, report]
  · intro hne
    have hp : posPhaseM orc s fn .FBYTES 0 isReg size stc = .ok (.cont s stc) := by
      simp [posPhaseM]
    rw [forwardM, hp]
    exact hdrainc hne
  · intro hfp
    refine ⟨showM_ok fl i f s st hfp hcap, ?_⟩
    rw [showRes]
    by_cases hr : s.rdErr = true
    · simp [hr, report]
    · simp [hr]

theorem drain_semantics_wit :
    (st0.sink.cap = none) ∧ (st0.sink.flushed = false)
    ∧ (stCap0.sink.cap = some stCap0.sink.out.length)
    ∧ (((⟨['x'], 0, false⟩ : CStream).rdErr = false →
        drainM ⟨['x'], 0, false⟩ "f" st0
          = .ok (⟨(⟨['x'], 0, false⟩ : CStream).data,
              (⟨['x'], 0, false⟩ : CStream).data.length, (⟨['x'], 0, false⟩ : CStream).rdErr⟩,
            ⟨⟨st0.sink.out ++ (⟨['x'], 0, false⟩ : CStream).data.drop 0, none, true⟩,
             st0.disp, st0.errs⟩))
      ∧ ((⟨['x'], 0, false⟩ : CStream).rdErr = true →
        drainM ⟨['x'], 0, false⟩ "f" st0
          = .ok (⟨(⟨['x'], 0, false⟩ : CStream).data,
              (⟨['x'], 0, false⟩ : CStream).data.length, (⟨['x'], 0, false⟩ : CStream).rdErr⟩,
            ⟨⟨st0.sink.out ++ (⟨['x'], 0, false⟩ : CStream).data.drop 0, none, false⟩,
             st0.disp, st0.errs ++ ["f"]⟩))
      ∧ ((⟨['x'], 0, false⟩ : CStream).data.drop 0 ≠ [] →
          drainM ⟨['x'], 0, false⟩ "f" stCap0 = .error stCap0)
      ∧ ((⟨['x'], 0, false⟩ : CStream).data.drop 0 ≠ [] →
          forwardM idOracle ⟨['x'], 0, false⟩ "f" .FBYTES 0 true 1 stCap0 = .error stCap0)
      ∧ ((⟨"f", some ⟨['x'], 0, false⟩, ⟨1, 1, 1⟩, true, false⟩ : FileInfoM).fp
            = some ⟨['x'], 0, false⟩ →
          showM ⟨false, false, false, 1⟩ 0
              ⟨"f", some ⟨['x'], 0, false⟩, ⟨1, 1, 1⟩, true, false⟩ st0
            = .ok (showRes ⟨false, false, false, 1⟩ 0
                ⟨"f", some ⟨['x'], 0, false⟩, ⟨1, 1, 1⟩, true, false⟩ ⟨['x'], 0, false⟩ st0)
          ∧ (showRes ⟨false, false, false, 1⟩ 0
              ⟨"f", some ⟨['x'], 0, false⟩, ⟨1, 1, 1⟩, true, false⟩
              ⟨['x'], 0, false⟩ st0).2.sink.flushed = true)) :=
  ⟨rfl, rfl, rfl,
   drain_semantics ⟨['x'], 0, false⟩ "f" st0 stCap0 idOracle true 1
     ⟨false, false, false, 1⟩ 0 ⟨"f", some ⟨['x'], 0, false⟩, ⟨1, 1, 1⟩, true, false⟩
     rfl rfl rfl⟩

/-! ### Lemmas about follow-loop termination -/

theorem followLoopM_no_done (fs : Nat → String → Option (List Char × Ident)) (fl : Flags) :
    ∀ (fuel cyc : Nat) (files : List FileInfoM) (st : OutSt) (st1 : OutSt),
      followLoopM fs fl fuel cyc files st ≠ .ok (.done st1) := by
  intro fuel
  induction fuel with
  | zero =>
    intro cyc files st st1 h
    simp [followLoopM] at h
  | succ k ih =>
    intro cyc files st st1 h
    rw [followLoopM] at h
    cases hc : followCycleM (fs cyc) fl files st with
    | error e =>
      rw [hc] at h
      simp at h
    | ok p =>
      rcases p with ⟨files1, st2⟩
      rw [hc] at h
      exact ih (cyc + 1) files1 st2 st1 h

theorem traverseFiles_closed (g : Nat → FileInfoM → OutSt → Except OutSt (FileInfoM × OutSt))
    (hg : ∀ (i : Nat) (f : FileInfoM) (st : OutSt), f.fp = none → g i f st = .ok (f, st)) :
    ∀ (files : List FileInfoM) (i : Nat) (st : OutSt),
      (∀ f ∈ files, f.fp = none) → traverseFiles g i files st = .ok (files, st) := by
  intro files
  induction files with
  | nil =>
    intro i st _
    rfl
  | cons f r ih =>
    intro i st hall
    simp only [traverseFiles, hg i f st (hall f (by simp)),
      ih (i + 1) st (fun f2 h2 => hall f2 (by simp [h2]))]

theorem enterFile_closed (orc : MapOracle) (style : STYLE) (off : Nat) (fl : Flags)
    (f : FileInfoM) (st : OutSt) (h : f.fp = none) :
    enterFile orc style off fl f st = .ok (f, st) := by
  simp only [enterFile, h]

theorem followEnterM_done (orc : MapOracle) (style : STYLE) (off : Nat) (fl : Flags)
    (files : List FileInfoM) (st st1 : OutSt)
    (h : followEnterM orc style off fl files st = .ok (.done st1)) :
    fl.Fflag = false ∧ files.any (fun f => f.fp.isSome) = false := by
  rw [followEnterM] at h
  cases ht : traverseFiles (fun _ f stx => enterFile orc style off fl f stx) 0 files st with
  | error e =>
    rw [ht] at h
    simp at h
  | ok p =>
    rcases p with ⟨files1, st2⟩
    rw [ht] at h
    have h2 : (if (!fl.Fflag && !(files.any (fun f => f.fp.isSome))) = true
        then (Except.ok (FollowRes.done st2) : Except OutSt FollowRes)
        else .ok (.more files1
          { st2 with disp := ⟨some (files.length - 1), st2.disp.hfirst⟩ }))
        = .ok (.done st1) := h
    by_cases hcond : (!fl.Fflag && !(files.any (fun f => f.fp.isSome))) = true
    · simp only [Bool.and_eq_true, Bool.not_eq_true'] at hcond
      exact hcond
    · rw [if_neg hcond] at h2
      simp at h2

theorem followEnterM_all_closed (orc : MapOracle) (style : STYLE) (off : Nat) (fl : Flags)
    (files : List FileInfoM) (st : OutSt)
    (hall : ∀ f ∈ files, f.fp = none) (hF : fl.Fflag = false) :
    followEnterM orc style off fl files st = .ok (.done st) := by
  have hany : files.any (fun f => f.fp.isSome) = false := by
    rw [List.any_eq_false]
    intro f hf
    simp [hall f hf]
  rw [followEnterM]
  rw [traverseFiles_closed _
    (fun _ f stx hf => enterFile_closed orc style off fl f stx hf) files 0 st hall]
  rw [hF, hany]
  rfl

/-- **C8**: the modelled follow loop returns normally only through the
early `return` before the infinite loop (forward.c:276-277): running it
for any number of cycles yields a normal termination exactly when
reopening is disabled and every tracked file's stream is absent; the loop
body itself has no exit, so any other outcome is either the loop still
running or a fatal sink write failure. -/
theorem follow_exit_iff (orc : MapOracle) (style : STYLE) (off : Nat)
    (fs : Nat → String → Option (List Char × Ident)) (fl : Flags)
    (files : List FileInfoM) (st : OutSt) (fuel : Nat) :
    (∃ st1, followM orc style off fs fl files st fuel = .ok (.done st1))
      ↔ (fl.Fflag = false ∧ ∀ f ∈ files, f.fp = none) := by
  constructor
  · rintro ⟨st1, h⟩
    rw [followM] at h
    cases he : followEnterM orc style off fl files st with
    | error e =>
      rw [he] at h
      simp at h
    | ok r =>
      cases r with
      | done st2 =>
        have hd := followEnterM_done orc style off fl files st st2 he
        refine ⟨hd.1, ?_⟩
        have hany := hd.2
        rw [List.any_eq_false] at hany
        intro f hf
        have hx := hany f hf
        simpa using hx
      | more files1 st2 =>
        rw [he] at h
        exact absurd h (followLoopM_no_done fs fl fuel 0 files1 st2 st1)
  · rintro ⟨hF, hall⟩
    exact ⟨st, by rw [followM, followEnterM_all_closed orc style off fl files st hall hF]⟩

/-- **C9 counterexample**: when the final seek of `rlines` fails, the scan
takes the `ierr; return` path at forward.c:219-222 and returns normally
with the mapped view still mapped (`mapped = true` in the result) — the
view is not released on this exit path, contradicting the claim that it is
released on every exit path including errors. -/
theorem rlines_map_leak_cex :
    rlinesM seekFailOracle ['x', '\n', 'y', '\n'] "f" 1 0 st0
      = .ok ⟨0, true, ⟨⟨['y', '\n'], none, false⟩, ⟨none, true⟩, ["f"]⟩⟩ := rfl

/-- **C9 (amended)**: the windowed view is released before `rlines`
returns on the successful path; on error paths it is not: a failed final
seek makes the scan return with the view still mapped, and a failed write
of the mapped range aborts the whole run without a normal return. -/
theorem rlines_map_release (win : Nat → Nat) (c : List Char) (fn : String) (off : Nat)
    (pos0 : Nat) (st stc : OutSt) (hc : c ≠ [])
    (hcap : st.sink.cap = none) (hcapc : stc.sink.cap = some stc.sink.out.length) :
    (rlinesM ⟨win, false⟩ c fn off pos0 st
      = .ok ⟨c.length, false,
          ⟨⟨st.sink.out ++ c.drop (rlinesStart win c off), none, false⟩,
           st.disp, st.errs⟩⟩)
    ∧ (rlinesM ⟨win, true⟩ c fn off pos0 st
      = .ok ⟨pos0, true,
          ⟨⟨st.sink.out ++ c.drop (rlinesStart win c off), none, false⟩, st.disp,
           st.errs ++ [fn]⟩⟩)
    ∧ rlinesM ⟨win, true⟩ c fn off pos0 stc = .error stc
    ∧ rlinesM ⟨win, false⟩ c fn off pos0 stc = .error stc := by
  have hlz : c.length ≠ 0 := by simpa using hc
  have hdrop : c.drop (rlinesStart win c off) ≠ [] := by
    have := rlinesStart_lt win c off hc
    simp [List.drop_eq_nil_iff]
    omega
  refine ⟨rlinesM_ok ⟨win, false⟩ c fn off pos0 st hcap rfl hc, ?_, ?_, ?_⟩
  · rw [rlinesM]
    simp [hlz, writeChars_cap_none _ st hcap, hdrop, report]
  · rw [rlinesM]
    simp [hlz, writeChars_fail_now stc _ hcapc hdrop]
  · rw [rlinesM]
    simp [hlz, writeChars_fail_now stc _ hcapc hdrop]

theorem rlines_map_release_wit :
    (['x', '\n', 'y', '\n'] ≠ ([] : List Char))
    ∧ (st0.sink.cap = none) ∧ (stCap0.sink.cap = some stCap0.sink.out.length)
    ∧ ((rlinesM ⟨fun t => t, false⟩ ['x', '\n', 'y', '\n'] "f" 1 0 st0
        = .ok ⟨(['x', '\n', 'y', '\n'] : List Char).length, false,
            ⟨⟨st0.sink.out ++ (['x', '\n', 'y', '\n'] : List Char).drop
                (rlinesStart (fun t => t) ['x', '\n', 'y', '\n'] 1), none, false⟩,
             st0.disp, st0.errs⟩⟩)
      ∧ (rlinesM ⟨fun t => t, true⟩ ['x', '\n', 'y', '\n'] "f" 1 0 st0
        = .ok ⟨0, true,
            ⟨⟨st0.sink.out ++ (['x', '\n', 'y', '\n'] : List Char).drop
                (rlinesStart (fun t => t) ['x', '\n', 'y', '\n'] 1), none, false⟩,
             st0.disp, st0.errs ++ ["f"]⟩⟩)
      ∧ rlinesM ⟨fun t => t, true⟩ ['x', '\n', 'y', '\n'] "f" 1 0 stCap0 = .error stCap0
      ∧ rlinesM ⟨fun t => t, false⟩ ['x', '\n', 'y', '\n'] "f" 1 0 stCap0 = .error stCap0) :=
  ⟨by decide, rfl, rfl,
   rlines_map_release (fun t => t) ['x', '\n', 'y', '\n'] "f" 1 0 st0 stCap0
     (by decide) rfl rfl⟩

theorem rotation_drain_then_adopt_wit :
    ((⟨true, false, true, 1⟩ : Flags).Fflag = true)
    ∧ (showPolicy ⟨true, false, true, 1⟩ = false)
    ∧ (st0.sink.cap = none)
    ∧ ((fun _ : String => some (['N'], (⟨2, 5, 1⟩ : Ident))) "a" = some (['N'], ⟨2, 5, 1⟩))
    ∧ ((⟨2, 5, 1⟩ : Ident).ino ≠ (⟨1, 1, 1⟩ : Ident).ino
        ∨ (⟨2, 5, 1⟩ : Ident).dev ≠ (⟨1, 1, 1⟩ : Ident).dev
        ∨ (⟨2, 5, 1⟩ : Ident).nlink = 0)
    ∧ ((['o', 'l', 'd'] : List Char).drop 1 ≠ []) ∧ (['N'] ≠ ([] : List Char))
    ∧ followCycleM (fun _ => some (['N'], ⟨2, 5, 1⟩)) ⟨true, false, true, 1⟩
        [⟨"a", some ⟨['o', 'l', 'd'], 1, false⟩, ⟨1, 1, 1⟩, true, false⟩] st0
      = .ok ([⟨"a", some ⟨['N'], (['N'] : List Char).length, false⟩, ⟨2, 5, 1⟩, true, false⟩],
          ⟨⟨st0.sink.out ++ (['o', 'l', 'd'] : List Char).drop 1 ++ ['N'], none, true⟩,
           ⟨some 0, st0.disp.hfirst⟩, st0.errs⟩) :=
  ⟨rfl, rfl, rfl, rfl, by decide, by decide, by decide,
   rotation_drain_then_adopt (fun _ => some (['N'], ⟨2, 5, 1⟩)) ⟨true, false, true, 1⟩
     "a" ['o', 'l', 'd'] ['N'] 1 ⟨1, 1, 1⟩ ⟨2, 5, 1⟩ st0
     rfl rfl rfl rfl (by decide) (by decide) (by decide)⟩

end Tail
